import Mathlib

/-!
A verification development for the `sac` interpreter for the 8-instruction
tape language (source files `src/interpreter.rs` and `src/main.rs`).

The Rust source is shallowly embedded:

* The `Lexer` (`Lexer::next`) becomes `lexNext`, which skips characters that
  are not instruction characters and returns the next instruction character
  together with the remaining text; the EOF sentinel character
  (the source returns the character `@`) becomes `none`.
* `Interpreter::load_program` (the IR builder with run-length folding)
  becomes `buildGo` / `loadIR`.
* `Interpreter::precompute_jumps` becomes `pjGo` / `precomputeJumps`; the
  `HashMap<usize, usize>` is modeled as an association list where an insert
  prepends and a lookup takes the first hit, which has the same
  insert/lookup semantics.
* The execution loop of `Interpreter::interpret` becomes `execInst` (one
  instruction dispatch) and `steps` (the fuelled cursor loop); the fixed
  `[u8; 100000]` tape is a function `Nat → Nat` whose accesses carry the
  bounds check that Rust performs on every indexing operation.

Machine integers are modeled as `Nat` with explicit checks where overflow
matters.  Arithmetic follows Rust's checked overflow semantics, which is the
behavior of the default (dev) build profile: an overflowing `u8`/`usize`
`+=`/`-=`, an out-of-bounds index, a failing `Option::unwrap`, and a failing
read from standard input are all panics, modeled as `Except.error`.  A panic
aborts the run; standard output flushed before the panic stays visible, so a
runtime failure carries the output produced so far.

The development interleaves a handful of lemmas into the definition section
only where a well-founded definition needs them for its termination
argument; everything else is definitions first, theorems after.
-/

namespace Sac

/-- The panics the Rust program can raise, named after the respective Rust
panic messages. -/
inductive PanicKind where
  /-- "attempt to add with overflow" (checked `+=` on `u8` or `usize`). -/
  | addOverflow
  /-- "attempt to subtract with overflow" (checked `-=` on `u8` or `usize`). -/
  | subOverflow
  /-- "index out of bounds" (array indexing with an index `≥` the length). -/
  | indexOutOfBounds
  /-- "called Option.unwrap on a None value". -/
  | unwrapNone
  /-- "[ERROR] Unable to read stdin !" (`read_exact` failed). -/
  | stdinReadFailed
  deriving DecidableEq

/-! ## Source scanner (`Lexer`) -/

/-- `Lexer::is_valid_instruction`: membership in the instruction alphabet
`"><+-.,[]"`. -/
def isValidInstruction (c : Char) : Bool :=
  (['>', '<', '+', '-', '.', ',', '[', ']']).contains c

/-- `Lexer::next`: skip characters that are not valid instructions, then
return the next instruction character and the rest of the text, or `none`
(the source's `@` EOF sentinel) when the text is exhausted. -/
def lexNext : List Char → Option (Char × List Char)
  | [] => none
  | c :: rest => if isValidInstruction c then some (c, rest) else lexNext rest

/-! ## IR instructions -/

/-- `IRInstructionKind` from the source. -/
inductive IRInstructionKind where
  | IncrementPointer
  | DecrementPointer
  | IncrementByte
  | DecrementByte
  | PrintByteAsChar
  | ReadInputToByte
  | JumpIfZero
  | JumpIfNotZero
  deriving DecidableEq

/-- `IRInstruction` from the source: a kind plus an optional `u8` repeat
count (the `u8` payload is kept as a `Nat`; the builder only produces values
in `1..=255`). -/
structure IRInstruction where
  kind : IRInstructionKind
  operand : Option Nat
  deriving DecidableEq

/-- The four characters whose runs are folded (`'>' | '<' | '+' | '-'` in the
builder's match). -/
def isFoldChar (c : Char) : Bool :=
  c = '>' || c = '<' || c = '+' || c = '-'

/-- The kind chosen by the builder's first match arm. -/
def foldKindOf (c : Char) : IRInstructionKind :=
  if c = '>' then .IncrementPointer
  else if c = '<' then .DecrementPointer
  else if c = '+' then .IncrementByte
  else .DecrementByte

/-- The kind chosen by the builder's second match arm
(`'.' | ',' | '[' | ']'`).  `lexNext` only ever produces characters of the
instruction alphabet, so together with `isFoldChar` this arm is exhaustive;
the source's unreachable catch-all arm (`_ => continue`) has no
counterpart. -/
def ioKindOf (c : Char) : IRInstructionKind :=
  if c = '.' then .PrintByteAsChar
  else if c = ',' then .ReadInputToByte
  else if c = '[' then .JumpIfZero
  else .JumpIfNotZero

/-- The four kinds that carry a repeat count. -/
def isFoldKind (k : IRInstructionKind) : Bool :=
  k = .IncrementPointer || k = .DecrementPointer ||
  k = .IncrementByte || k = .DecrementByte

/-! ## IR builder (`Interpreter::load_program`)

The builder's two nested loops consume the text through `lexNext`, so their
recursion is well-founded in the length of the remaining text; the next few
lemmas are exactly the termination facts those definitions need. -/

/-- Size, for termination, of a lexer position: `none` is exhausted. -/
def osize : Option (Char × List Char) → Nat
  | none => 0
  | some (_, rest) => rest.length + 1

theorem lexNext_length {l : List Char} {c : Char} {r : List Char}
    (h : lexNext l = some (c, r)) : r.length < l.length := by
  induction l with
  | nil => simp [lexNext] at h
  | cons a l ih =>
    by_cases hv : isValidInstruction a
    · simp [lexNext, hv] at h
      obtain ⟨h1, h2⟩ := h
      subst h2
      simp
    · simp [lexNext, hv] at h
      exact Nat.lt_trans (ih h) (by simp)

theorem osize_lexNext_le (l : List Char) : osize (lexNext l) ≤ l.length := by
  cases h : lexNext l with
  | none => simp [osize]
  | some p =>
    obtain ⟨c, r⟩ := p
    simpa [osize] using lexNext_length h

/-- The run-folding inner loop of `load_program`:
`let mut s = self.lexer.next(); let mut streak = 1u8;
 while c == s { streak += 1; s = self.lexer.next(); }`.
`streak += 1` is a checked `u8` increment: it panics when `streak` is 255. -/
def runStreak (c : Char) (k : Nat) (o : Option (Char × List Char)) :
    Except PanicKind (Nat × Option (Char × List Char)) :=
  match o with
  | none => .ok (k, none)
  | some (s, rest) =>
    if s = c then
      if k = 255 then .error .addOverflow
      else runStreak c (k + 1) (lexNext rest)
    else .ok (k, some (s, rest))
termination_by osize o
decreasing_by
  simp only [osize]
  exact Nat.lt_succ_of_le (osize_lexNext_le rest)

theorem runStreak_osize_aux (c : Char) :
    ∀ n k o k' o', osize o ≤ n → runStreak c k o = .ok (k', o') →
      osize o' ≤ osize o := by
  intro n
  induction n with
  | zero =>
    intro k o k' o' hn h
    cases o with
    | none =>
      simp [runStreak] at h
      obtain ⟨h1, h2⟩ := h
      subst h2
      exact Nat.le_refl _
    | some p =>
      obtain ⟨s, rest⟩ := p
      simp [osize] at hn
  | succ n ih =>
    intro k o k' o' hn h
    cases o with
    | none =>
      simp [runStreak] at h
      obtain ⟨h1, h2⟩ := h
      subst h2
      exact Nat.le_refl _
    | some p =>
      obtain ⟨s, rest⟩ := p
      by_cases hs : s = c
      · by_cases hk : k = 255
        · simp [runStreak, hs, hk] at h
        · simp only [runStreak, hs, hk, if_true, if_false, ite_true,
            ite_false] at h
          have hrec : osize (lexNext rest) ≤ n := by
            have h1 := osize_lexNext_le rest
            simp only [osize] at hn
            omega
          have h2 := ih (k + 1) (lexNext rest) k' o' hrec h
          have h3 := osize_lexNext_le rest
          have h4 : osize (some (s, rest)) = rest.length + 1 := rfl
          omega
      · simp [runStreak, hs] at h
        obtain ⟨h1, h2⟩ := h
        subst h2
        exact Nat.le_refl _

theorem runStreak_osize {c : Char} {k : Nat} {o : Option (Char × List Char)}
    {k' : Nat} {o' : Option (Char × List Char)}
    (h : runStreak c k o = .ok (k', o')) : osize o' ≤ osize o :=
  runStreak_osize_aux c (osize o) k o k' o' (Nat.le_refl _) h

/-- The main loop of `load_program`, starting from the last `lexer.next()`
result (the current character `c`, or the EOF sentinel). -/
def buildGo (o : Option (Char × List Char)) :
    Except PanicKind (List IRInstruction) :=
  match o with
  | none => .ok []
  | some (c, rest) =>
    if isFoldChar c then
      match h : runStreak c 1 (lexNext rest) with
      | .error e => .error e
      | .ok (k, nxt) =>
        (buildGo nxt).map (fun prog => ⟨foldKindOf c, some k⟩ :: prog)
    else
      (buildGo (lexNext rest)).map (fun prog => ⟨ioKindOf c, none⟩ :: prog)
termination_by osize o
decreasing_by
  · simp only [osize]
    exact Nat.lt_succ_of_le
      (Nat.le_trans (runStreak_osize h) (osize_lexNext_le rest))
  · simp only [osize]
    exact Nat.lt_succ_of_le (osize_lexNext_le rest)

/-- `Interpreter::load_program`, on the program text (file I/O is outside the
embedding: the text is the function's argument). -/
def loadIR (cs : List Char) : Except PanicKind (List IRInstruction) :=
  buildGo (lexNext cs)

/-! ## Loop resolver (`Interpreter::precompute_jumps`)

The `HashMap<usize, usize>` is an association list: `HashMap::insert`
prepends, `HashMap::get` returns the first entry with the key, so the most
recent insert wins, exactly as in the hash map. -/

/-- `HashMap::insert`. -/
def jmInsert (m : List (Nat × Nat)) (k v : Nat) : List (Nat × Nat) :=
  (k, v) :: m

/-- `HashMap::get`. -/
def jmGet (m : List (Nat × Nat)) (k : Nat) : Option Nat :=
  (m.find? (fun e => e.1 == k)).map (fun e => e.2)

/-- The loop of `precompute_jumps`, with the list of instructions still to
scan, the absolute index of its first instruction
(`local_instruction_pointer`), the stack of pending loop-open indices, and
the jump map built so far.  `stack.pop().unwrap()` on an empty stack is the
unwrap panic. -/
def pjGo : List IRInstruction → Nat → List Nat → List (Nat × Nat) →
    Except PanicKind (List (Nat × Nat))
  | [], _, _, jm => .ok jm
  | inst :: rest, p, stack, jm =>
    match inst.kind with
    | .JumpIfZero => pjGo rest (p + 1) (p :: stack) jm
    | .JumpIfNotZero =>
      match stack with
      | [] => .error .unwrapNone
      | t :: s => pjGo rest (p + 1) s (jmInsert (jmInsert jm p t) t p)
    | _ => pjGo rest (p + 1) stack jm

/-- `Interpreter::precompute_jumps`.  Note the source ignores loop-opens left
on the stack at the end of the pass. -/
def precomputeJumps (prog : List IRInstruction) :
    Except PanicKind (List (Nat × Nat)) :=
  pjGo prog 0 [] []

/-! ## Execution engine (`Interpreter::interpret`) -/

/-- `TOTAL_MEMORY_SIZE` from the source: the tape capacity. -/
def TOTAL_MEMORY_SIZE : Nat := 100000

/-- One more than `usize::MAX`: `memory_pointer += n` is a checked add
against this bound. -/
def USIZE_BOUND : Nat := 2 ^ 64

/-- A fatal runtime error: the panic, together with the standard output
already flushed when it happened (flushed output stays visible). -/
structure Failure where
  panic : PanicKind
  output : List Nat
  deriving DecidableEq

/-- The mutable interpreter state: `instruction_pointer`, `memory_pointer`,
the tape (a total function; every access in `execInst` carries the Rust
bounds check against `TOTAL_MEMORY_SIZE`), the bytes still unread on
standard input, and the bytes written to standard output so far. -/
structure IState where
  ip : Nat
  mp : Nat
  mem : Nat → Nat
  input : List Nat
  output : List Nat

/-- Point update of the tape. -/
def writeMem (mem : Nat → Nat) (i v : Nat) : Nat → Nat :=
  fun j => if j = i then v else mem j

/-- The all-zero tape (`memory: [0; TOTAL_MEMORY_SIZE]`). -/
def memInit : Nat → Nat := fun _ => 0

/-- One dispatch of the `match inst.kind` in `Interpreter::interpret` (the
unconditional `instruction_pointer += 1` that follows it lives in `steps`).

Checked semantics of each arm, in the source's evaluation order:
* pointer arms: `inst.operand.unwrap()` (panics on `None`), then a checked
  `usize` add (against `USIZE_BOUND`) or subtract;
* byte arms: `unwrap`, then the bounds-checked tape access, then a checked
  `u8` add/subtract (wrap past 255 or below 0 is a panic);
* print/read: bounds-checked access; a read takes one byte from standard
  input first and panics when input is exhausted;
* jumps: bounds-checked read of the current cell, then
  `jump_map.get(...).unwrap()` when the jump is taken — missing entries
  (an unmatched loop-open) are the unwrap panic. -/
def execInst (inst : IRInstruction) (jm : List (Nat × Nat)) (st : IState) :
    Except Failure IState :=
  match inst.kind with
  | .IncrementPointer =>
    match inst.operand with
    | none => .error ⟨.unwrapNone, st.output⟩
    | some n =>
      if st.mp + n < USIZE_BOUND then .ok { st with mp := st.mp + n }
      else .error ⟨.addOverflow, st.output⟩
  | .DecrementPointer =>
    match inst.operand with
    | none => .error ⟨.unwrapNone, st.output⟩
    | some n =>
      if n ≤ st.mp then .ok { st with mp := st.mp - n }
      else .error ⟨.subOverflow, st.output⟩
  | .IncrementByte =>
    match inst.operand with
    | none => .error ⟨.unwrapNone, st.output⟩
    | some n =>
      if st.mp < TOTAL_MEMORY_SIZE then
        if st.mem st.mp + n ≤ 255 then
          .ok { st with mem := writeMem st.mem st.mp (st.mem st.mp + n) }
        else .error ⟨.addOverflow, st.output⟩
      else .error ⟨.indexOutOfBounds, st.output⟩
  | .DecrementByte =>
    match inst.operand with
    | none => .error ⟨.unwrapNone, st.output⟩
    | some n =>
      if st.mp < TOTAL_MEMORY_SIZE then
        if n ≤ st.mem st.mp then
          .ok { st with mem := writeMem st.mem st.mp (st.mem st.mp - n) }
        else .error ⟨.subOverflow, st.output⟩
      else .error ⟨.indexOutOfBounds, st.output⟩
  | .PrintByteAsChar =>
    if st.mp < TOTAL_MEMORY_SIZE then
      .ok { st with output := st.output ++ [st.mem st.mp] }
    else .error ⟨.indexOutOfBounds, st.output⟩
  | .ReadInputToByte =>
    match st.input with
    | [] => .error ⟨.stdinReadFailed, st.output⟩
    | b :: rest =>
      if st.mp < TOTAL_MEMORY_SIZE then
        .ok { st with mem := writeMem st.mem st.mp b, input := rest }
      else .error ⟨.indexOutOfBounds, st.output⟩
  | .JumpIfZero =>
    if st.mp < TOTAL_MEMORY_SIZE then
      if st.mem st.mp = 0 then
        match jmGet jm st.ip with
        | none => .error ⟨.unwrapNone, st.output⟩
        | some t => .ok { st with ip := t }
      else .ok st
    else .error ⟨.indexOutOfBounds, st.output⟩
  | .JumpIfNotZero =>
    if st.mp < TOTAL_MEMORY_SIZE then
      if st.mem st.mp = 0 then .ok st
      else
        match jmGet jm st.ip with
        | none => .error ⟨.unwrapNone, st.output⟩
        | some t => .ok { st with ip := t }
    else .error ⟨.indexOutOfBounds, st.output⟩

/-- The `while self.instruction_pointer < self.program.len()` loop of
`interpret`, with fuel: with fuel `0` the current state is returned as is
(the loop is not known to terminate; every theorem about a complete run
names a sufficient fuel).  After each dispatch the cursor is incremented —
also right after a taken jump, exactly as in the source. -/
def steps (prog : List IRInstruction) (jm : List (Nat × Nat)) :
    Nat → IState → Except Failure IState
  | 0, st => .ok st
  | fuel + 1, st =>
    match prog.get? st.ip with
    | none => .ok st
    | some inst =>
      match execInst inst jm st with
      | .error f => .error f
      | .ok st' => steps prog jm fuel { st' with ip := st'.ip + 1 }

/-- The state at the top of `Interpreter::interpret`. -/
def initState (input : List Nat) : IState :=
  ⟨0, 0, memInit, input, []⟩

/-- `Interpreter::interpret` on an already built IR program: resolve the
jumps (a panic there happens before any instruction runs, hence with empty
output), then run the cursor loop. -/
def interpretIR (fuel : Nat) (prog : List IRInstruction) (input : List Nat) :
    Except Failure IState :=
  match precomputeJumps prog with
  | .error e => .error ⟨e, []⟩
  | .ok jm => steps prog jm fuel (initState input)

/-- The whole pipeline on program text: `load_program` then `interpret`.  A
builder panic also happens before any output exists. -/
def interpretSrc (fuel : Nat) (cs : List Char) (input : List Nat) :
    Except Failure IState :=
  match loadIR cs with
  | .error e => .error ⟨e, []⟩
  | .ok prog => interpretIR fuel prog input

/-! ## Command line entry point (`main.rs`) -/

/-- First line printed to standard error when no path is given. -/
def usageMsg : String := "[ERROR] Usage : ./sac program.bf"

/-- Second line printed to standard error when no path is given. -/
def noProgramMsg : String := "[ERROR] No program provided !"

/-- What `main` does, observably: either it exits early after printing to
standard error, or it goes on to load and interpret the file at `path`. -/
inductive MainOutcome where
  | earlyExit (stderrLines : List String) (exitCode : Nat)
  | runProgram (path : String)
  deriving DecidableEq

/-- `main`: with at most one argument (`args.len() <= 1`, where the first
argument is the binary's own name) print the two error lines and exit with
code 1; otherwise proceed with `args[1]` as the program path. -/
def runMain : List String → MainOutcome
  | [] => .earlyExit [usageMsg, noProgramMsg] 1
  | [_] => .earlyExit [usageMsg, noProgramMsg] 1
  | _ :: path :: _ => .runProgram path

/-! ## A structurally recursive view of the builder

`buildGo` follows the source's two nested loops, so its recursion is
well-founded rather than structural and the kernel cannot evaluate it on
concrete programs.  `buildRaw` is the same algorithm written as one pass
over the raw text (the run being folded is the accumulator); it is proved
equal to `buildGo` below and is what concrete evaluations reduce. -/

def buildRaw : List Char → Option (Char × Nat) →
    Except PanicKind (List IRInstruction)
  | [], none => .ok []
  | [], some (c, k) => .ok [⟨foldKindOf c, some k⟩]
  | x :: rest, acc =>
    if isValidInstruction x then
      match acc with
      | none =>
        if isFoldChar x then buildRaw rest (some (x, 1))
        else (buildRaw rest none).map (fun prog => ⟨ioKindOf x, none⟩ :: prog)
      | some (c, k) =>
        if x = c then
          if k = 255 then .error .addOverflow
          else buildRaw rest (some (c, k + 1))
        else
          ((if isFoldChar x then buildRaw rest (some (x, 1))
            else (buildRaw rest none).map
              (fun prog => ⟨ioKindOf x, none⟩ :: prog)).map
            (fun prog => ⟨foldKindOf c, some k⟩ :: prog))
    else buildRaw rest acc

/-- The tail of `buildGo`'s folding branch: finish the current streak, then
continue the outer loop. -/
def runTail (c : Char) (k : Nat) (o : Option (Char × List Char)) :
    Except PanicKind (List IRInstruction) :=
  match runStreak c k o with
  | .error e => .error e
  | .ok (k', nxt) =>
    (buildGo nxt).map (fun prog => ⟨foldKindOf c, some k'⟩ :: prog)

/-- The whole pipeline with the one-pass builder (kernel-evaluable). -/
def interpretRaw (fuel : Nat) (cs : List Char) (input : List Nat) :
    Except Failure IState :=
  match buildRaw cs none with
  | .error e => .error ⟨e, []⟩
  | .ok prog => interpretIR fuel prog input

/-! ## Specification-side definitions used by individual claims -/

/-- The instruction characters of a text, in order: what remains once the
scanner has skipped every comment character. -/
def filterValid (cs : List Char) : List Char :=
  cs.filter isValidInstruction

/-- `Ins P P'`: the text `P'` is the text `P` with arbitrary non-instruction
characters inserted at arbitrary positions (claim C6's relation between a
program and its commented variant). -/
inductive Ins : List Char → List Char → Prop where
  | nil : Ins [] []
  | keep (c : Char) {l l' : List Char} : Ins l l' → Ins (c :: l) (c :: l')
  | skip (c : Char) {l l' : List Char} (hc : isValidInstruction c = false) :
      Ins l l' → Ins l (c :: l')

theorem length_dropWhile_le' (p : Char → Bool) :
    ∀ l : List Char, (l.dropWhile p).length ≤ l.length := by
  intro l
  induction l with
  | nil => simp [List.dropWhile]
  | cons a l ih =>
    by_cases h : p a = true
    · simp only [List.dropWhile, h]
      exact Nat.le_trans ih (by simp)
    · simp only [List.dropWhile, h]
      simp at h
      simp [h]

/-- Specification-side run-length encoding of a (comment-free) instruction
stream: one instruction per maximal run of identical folding characters,
carrying the exact run length; one payload-free instruction per other
character.  This follows the spec's words for the IR Builder and is the
yardstick the builder is compared against (claims C5 and C8). -/
def specRLE : List Char → List IRInstruction
  | [] => []
  | c :: rest =>
    if isFoldChar c then
      ⟨foldKindOf c, some (1 + (rest.takeWhile (fun x => x == c)).length)⟩ ::
        specRLE (rest.dropWhile (fun x => x == c))
    else ⟨ioKindOf c, none⟩ :: specRLE rest
termination_by l => l.length
decreasing_by
  · exact Nat.lt_succ_of_le (length_dropWhile_le' (fun x => x == c) rest)
  · exact Nat.lt_succ_of_le (Nat.le_refl _)

/-- The operand discipline of built programs (claim C10): folding kinds
carry `some n` with `1 ≤ n ≤ 255`, the other kinds carry `none`. -/
def OperandInv (inst : IRInstruction) : Prop :=
  (isFoldKind inst.kind = true → inst.operand.isSome = true) ∧
  (isFoldKind inst.kind = false → inst.operand = none) ∧
  (∀ n, inst.operand = some n → 1 ≤ n ∧ n ≤ 255)

/-- A sample path argument for the C9 witness. -/
def demoPath : String := "program.bf"

/-- The one-instruction program `-`: decrement the (zero) cell at index 0. -/
def decProgram : List Char := ['-']

/-- A program that brings cell 0 to 255 (a run of 255 `+`, the builder's
maximal fold), breaks the run with the no-op pair `><`, and increments once
more. -/
def incOverflowProgram : List Char := List.replicate 255 '+' ++ ['>', '<', '+']

/-- The program text `++++++++[>++++++++<-]>.`. -/
def prog64 : List Char :=
  ['+', '+', '+', '+', '+', '+', '+', '+', '[', '>', '+', '+', '+', '+',
   '+', '+', '+', '+', '<', '-', ']', '>', '.']

/-- Standard output and final cursor of a successful run. -/
def outIp : Except Failure IState → Option (List Nat × Nat)
  | .ok s => some (s.output, s.ip)
  | .error _ => none

/-- Pointer and tape of a run result: the state components claim C5
compares (the cursor necessarily differs between a folded and an unfolded
program, since the programs have different lengths). -/
def runPT (e : Except Failure IState) : Except Failure (Nat × (Nat → Nat)) :=
  e.map (fun s => (s.mp, s.mem))

/-- The kinds whose dispatch reads or writes `memory[memory_pointer]`
(everything except the pure pointer moves). -/
def accessesMemory : IRInstructionKind → Bool
  | .IncrementPointer => false
  | .DecrementPointer => false
  | _ => true

/-- Final pointer and cursor of a successful run (claim C2's
counterexample projection). -/
def finalPtr : Except Failure IState → Option (Nat × Nat)
  | .ok s => some (s.mp, s.ip)
  | .error _ => none

/-- Counterexample text for claim C2: `m` blocks, each 255 `>` followed by
one `<` (the `<` only breaks the fold run; net pointer move +254 per
block).  394 blocks drive the pointer to 100076, past the tape capacity,
without ever touching a cell. -/
def cexBlockText : Nat → List Char
  | 0 => []
  | m + 1 => List.replicate 255 '>' ++ '<' :: cexBlockText m

/-- The IR program the builder produces for `cexBlockText`. -/
def cexProgN : Nat → List IRInstruction
  | 0 => []
  | m + 1 => ⟨.IncrementPointer, some 255⟩ :: ⟨.DecrementPointer, some 1⟩ ::
      cexProgN m

/-- 394 blocks: 788 IR instructions, final pointer 394 · 254 = 100076. -/
def cexProg : List IRInstruction := cexProgN 394

/-! ### Bracket structure (claims C3 and C4) -/

/-- Bracket weight of an instruction kind: loop-open counts +1, loop-close
−1, everything else 0. -/
def bracketDelta (k : IRInstructionKind) : Int :=
  if k = .JumpIfZero then 1 else if k = .JumpIfNotZero then -1 else 0

/-- Bracket depth after the first `n` instructions. -/
def depthAt (prog : List IRInstruction) (n : Nat) : Int :=
  ((prog.take n).map (fun i => bracketDelta i.kind)).sum

/-- Correct nesting: no prefix closes more loops than it opened, and the
totals agree (classic matched-parenthesis structure). -/
def Balanced (prog : List IRInstruction) : Prop :=
  (∀ n, n ≤ prog.length → 0 ≤ depthAt prog n) ∧
  depthAt prog prog.length = 0

/-- An unmatched loop-close: some prefix closes more loops than it
opened. -/
def HasUnmatchedClose (prog : List IRInstruction) : Prop :=
  ∃ n, n ≤ prog.length ∧ depthAt prog n < 0

/-- The instruction kind at an index. -/
def kindAt (prog : List IRInstruction) (i : Nat) : Option IRInstructionKind :=
  (prog.get? i).map IRInstruction.kind

/-- The classic matched-bracket relation: `i` holds a loop-open, `j` holds a
loop-close, and `j` is the first position after `i` at which the depth
returns to the depth before `i` — equivalently, the instructions strictly
between them are bracket-balanced. -/
def Matched (prog : List IRInstruction) (i j : Nat) : Prop :=
  kindAt prog i = some .JumpIfZero ∧
  kindAt prog j = some .JumpIfNotZero ∧
  i < j ∧
  depthAt prog j = depthAt prog i + 1 ∧
  ∀ m, i < m → m ≤ j → depthAt prog i + 1 ≤ depthAt prog m

/-- The loop invariant of `precompute_jumps` at position `p`: all prefixes
so far are nonnegative in depth; the stack holds, from bottom to top, the
loop-opens of depth 0, 1, … that are still open at `p`; the jump map holds
exactly the pairs (in both directions) whose loop-close lies before `p`;
and both bracket kinds seen so far are accounted for. -/
structure PJInv (prog : List IRInstruction) (p : Nat) (stack : List Nat)
    (jm : List (Nat × Nat)) : Prop where
  p_le : p ≤ prog.length
  nonneg : ∀ u, u ≤ p → 0 ≤ depthAt prog u
  height : (stack.length : Int) = depthAt prog p
  stk : ∀ lvl t, stack.reverse.get? lvl = some t →
    kindAt prog t = some .JumpIfZero ∧ t < p ∧
    depthAt prog t = (lvl : Int) ∧
    ∀ m, t < m → m ≤ p → (lvl : Int) + 1 ≤ depthAt prog m
  jm_mem : ∀ a b, ((a, b) ∈ jm ↔
    ∃ i j, Matched prog i j ∧ j < p ∧ ((a, b) = (i, j) ∨ (a, b) = (j, i)))
  jm_len : jm.length =
    2 * ((prog.take p).countP (fun inst => inst.kind == .JumpIfNotZero))
  jz_covered : ∀ t, t < p → kindAt prog t = some .JumpIfZero →
    t ∈ stack ∨ ∃ j, (t, j) ∈ jm
  jnz_covered : ∀ j, j < p → kindAt prog j = some .JumpIfNotZero →
    ∃ t, (j, t) ∈ jm

/-! ## Theorems: builder bridge -/

theorem buildGo_none : buildGo none = .ok [] := by
  simp [buildGo]

theorem buildGo_some (c : Char) (rest : List Char) :
    buildGo (some (c, rest)) =
      if isFoldChar c then runTail c 1 (lexNext rest)
      else (buildGo (lexNext rest)).map
        (fun prog => ⟨ioKindOf c, none⟩ :: prog) := by
  rw [buildGo, runTail]
  by_cases hf : isFoldChar c
  · simp only [hf, if_true]
    cases h : runStreak c 1 (lexNext rest) with
    | error e => rfl
    | ok p => obtain ⟨k, nxt⟩ := p; rfl
  · simp [hf]

theorem runStreak_none (c : Char) (k : Nat) :
    runStreak c k none = .ok (k, none) := by
  simp [runStreak]

theorem runStreak_some_eq (c : Char) (k : Nat) (rest : List Char) :
    runStreak c k (some (c, rest)) =
      if k = 255 then .error .addOverflow
      else runStreak c (k + 1) (lexNext rest) := by
  rw [runStreak]
  simp

theorem runStreak_some_ne (c : Char) (k : Nat) (s : Char) (rest : List Char)
    (h : ¬ s = c) :
    runStreak c k (some (s, rest)) = .ok (k, some (s, rest)) := by
  rw [runStreak]
  simp [h]

theorem bridge_aux : ∀ n (cs : List Char), cs.length ≤ n →
    (buildRaw cs none = buildGo (lexNext cs)) ∧
    (∀ c k, buildRaw cs (some (c, k)) = runTail c k (lexNext cs)) := by
  intro n
  induction n with
  | zero =>
    intro cs hn
    have h0 : cs = [] := List.length_eq_zero.mp (Nat.le_zero.mp hn)
    subst h0
    refine ⟨by simp [buildRaw, lexNext, buildGo_none], ?_⟩
    intro c k
    simp [buildRaw, lexNext, runTail, runStreak_none, buildGo_none,
      Except.map]
  | succ n ih =>
    intro cs hn
    cases cs with
    | nil =>
      refine ⟨by simp [buildRaw, lexNext, buildGo_none], ?_⟩
      intro c k
      simp [buildRaw, lexNext, runTail, runStreak_none, buildGo_none,
        Except.map]
    | cons x rest =>
      have hr : rest.length ≤ n := by
        simp only [List.length_cons] at hn
        omega
      by_cases hv : isValidInstruction x
      · have hlex : lexNext (x :: rest) = some (x, rest) := by
          simp [lexNext, hv]
        constructor
        · rw [hlex, buildGo_some]
          by_cases hf : isFoldChar x
          · have h2 := (ih rest hr).2 x 1
            simp [buildRaw, hv, hf, h2]
          · have h1 := (ih rest hr).1
            simp [buildRaw, hv, hf, h1]
        · intro c k
          rw [hlex]
          by_cases hx : x = c
          · subst hx
            by_cases hk : k = 255
            · simp [buildRaw, hv, hk, runTail, runStreak_some_eq]
            · have hrt : runTail x k (some (x, rest)) =
                  runTail x (k + 1) (lexNext rest) := by
                simp [runTail, runStreak_some_eq, hk]
              rw [hrt]
              have h2 := (ih rest hr).2 x (k + 1)
              simp [buildRaw, hv, hk, h2]
          · have hrt : runTail c k (some (x, rest)) =
                (buildGo (some (x, rest))).map
                  (fun prog => ⟨foldKindOf c, some k⟩ :: prog) := by
              simp [runTail, runStreak_some_ne c k x rest hx]
            rw [hrt, buildGo_some]
            by_cases hf : isFoldChar x
            · have h2 := (ih rest hr).2 x 1
              simp [buildRaw, hv, hx, hf, h2]
            · have h1 := (ih rest hr).1
              simp [buildRaw, hv, hx, hf, h1]
      · have hlex : lexNext (x :: rest) = lexNext rest := by
          simp [lexNext, hv]
        refine ⟨?_, ?_⟩
        · show buildRaw (x :: rest) none = _
          rw [hlex, ← (ih rest hr).1]
          simp [buildRaw, hv]
        · intro c k
          show buildRaw (x :: rest) (some (c, k)) = _
          rw [hlex, ← (ih rest hr).2 c k]
          simp [buildRaw, hv]

/-- `load_program` and the one-pass builder agree. -/
theorem loadIR_eq_raw (cs : List Char) : loadIR cs = buildRaw cs none :=
  ((bridge_aux cs.length cs (Nat.le_refl _)).1).symm

theorem interpretSrc_eq_raw (fuel : Nat) (cs : List Char)
    (input : List Nat) :
    interpretSrc fuel cs input = interpretRaw fuel cs input := by
  simp only [interpretSrc, interpretRaw, loadIR_eq_raw]

/-! ## Theorems: the builder sees only instruction characters -/

theorem buildRaw_filter :
    ∀ (cs : List Char) (acc : Option (Char × Nat)),
      buildRaw cs acc = buildRaw (filterValid cs) acc := by
  intro cs
  induction cs with
  | nil => intro acc; rfl
  | cons x rest ih =>
    intro acc
    by_cases hv : isValidInstruction x
    · have hfe : filterValid (x :: rest) = x :: filterValid rest := by
        simp [filterValid, hv]
      rw [hfe]
      cases acc with
      | none => simp only [buildRaw, hv, if_true, ih]
      | some p => obtain ⟨c, k⟩ := p; simp only [buildRaw, hv, if_true, ih]
    · have hfe : filterValid (x :: rest) = filterValid rest := by
        simp [filterValid, hv]
      rw [hfe, ← ih acc]
      simp [buildRaw, hv]

theorem filterValid_Ins {P P' : List Char} (h : Ins P P') :
    filterValid P = filterValid P' := by
  induction h with
  | nil => rfl
  | keep c h ih =>
    by_cases hv : isValidInstruction c <;> simp [filterValid, hv] <;>
      simpa [filterValid] using ih
  | skip c hc h ih =>
    simp [filterValid, hc]
    simpa [filterValid] using ih

/-! ## Claim C6 -/

/-- Claim C6 (comment transparency): inserting arbitrary non-instruction
characters anywhere in a program changes neither the built IR program nor
any execution: for every fuel and input the entire run result — output,
tape, everything — is identical. -/
theorem c6_comment_transparency (P P' : List Char) (h : Ins P P') :
    loadIR P = loadIR P' ∧
    ∀ fuel input, interpretSrc fuel P input = interpretSrc fuel P' input := by
  have hf : filterValid P = filterValid P' := filterValid_Ins h
  have hl : loadIR P = loadIR P' := by
    rw [loadIR_eq_raw, loadIR_eq_raw, buildRaw_filter P none,
      buildRaw_filter P' none, hf]
  exact ⟨hl, fun fuel input => by simp [interpretSrc, hl]⟩

/-- Witness for C6: `+a.!` is `+.` with the comment characters `a` and `!`
inserted, and both texts build and run identically. -/
theorem c6_comment_transparency_witness :
    loadIR ['+', '.'] = loadIR ['+', 'a', '.', '!'] ∧
    interpretSrc 5 ['+', '.'] [] = interpretSrc 5 ['+', 'a', '.', '!'] [] := by
  have hins : Ins ['+', '.'] ['+', 'a', '.', '!'] :=
    Ins.keep '+' (Ins.skip 'a' (by decide)
      (Ins.keep '.' (Ins.skip '!' (by decide) Ins.nil)))
  exact ⟨(c6_comment_transparency _ _ hins).1,
    (c6_comment_transparency _ _ hins).2 5 []⟩

/-! ## Theorems: what successful builds look like -/

theorem isFoldChar_valid {c : Char} (h : isFoldChar c = true) :
    isValidInstruction c = true := by
  simp only [isFoldChar, Bool.or_eq_true, decide_eq_true_eq] at h
  rcases h with ((h | h) | h) | h <;> subst h <;> decide

theorem buildRaw_run_overflow (c : Char) (hval : isValidInstruction c = true) :
    ∀ m j, j ≤ 255 → 255 < j + m →
      buildRaw (List.replicate m c) (some (c, j)) = .error .addOverflow := by
  intro m
  induction m with
  | zero =>
    intro j h1 h2
    omega
  | succ m ih =>
    intro j h1 h2
    by_cases hk : j = 255
    · simp [List.replicate_succ, buildRaw, hval, hk]
    · have hrec := ih (j + 1) (by omega) (by omega)
      simp [List.replicate_succ, buildRaw, hval, hk, hrec]

theorem buildRaw_specRLE_aux : ∀ n (l : List Char), l.length ≤ n →
    (∀ x ∈ l, isValidInstruction x = true) →
    ((∀ prog, buildRaw l none = .ok prog → prog = specRLE l) ∧
     (∀ c k prog, buildRaw l (some (c, k)) = .ok prog →
       prog =
         ⟨foldKindOf c,
           some (k + (l.takeWhile (fun x => x == c)).length)⟩ ::
         specRLE (l.dropWhile (fun x => x == c)))) := by
  intro n
  induction n with
  | zero =>
    intro l hn hval
    have h0 : l = [] := List.length_eq_zero.mp (Nat.le_zero.mp hn)
    subst h0
    constructor
    · intro prog h
      simp only [buildRaw] at h
      cases h
      simp [specRLE]
    · intro c k prog h
      simp only [buildRaw] at h
      cases h
      simp [specRLE]
  | succ n ih =>
    intro l hn hval
    cases l with
    | nil =>
      constructor
      · intro prog h
        simp only [buildRaw] at h
        cases h
        simp [specRLE]
      · intro c k prog h
        simp only [buildRaw] at h
        cases h
        simp [specRLE]
    | cons x rest =>
      have hr : rest.length ≤ n := by
        simp only [List.length_cons] at hn
        omega
      have hvx : isValidInstruction x = true := hval x (by simp)
      have hvr : ∀ y ∈ rest, isValidInstruction y = true :=
        fun y hy => hval y (by simp [hy])
      constructor
      · intro prog h
        simp only [buildRaw, hvx, if_true] at h
        by_cases hf : isFoldChar x
        · rw [if_pos hf] at h
          have h2 := (ih rest hr hvr).2 x 1 prog h
          rw [h2]
          simp [specRLE, hf]
        · rw [if_neg hf] at h
          cases hb : buildRaw rest none with
          | error e => rw [hb] at h; simp [Except.map] at h
          | ok prog2 =>
            rw [hb] at h
            simp only [Except.map, Except.ok.injEq] at h
            have h1 := (ih rest hr hvr).1 prog2 hb
            rw [← h, h1]
            simp [specRLE, hf]
      · intro c k prog h
        simp only [buildRaw, hvx, if_true] at h
        by_cases hx : x = c
        · subst hx
          rw [if_pos rfl] at h
          by_cases hk : k = 255
          · rw [if_pos hk] at h
            cases h
          · rw [if_neg hk] at h
            have h2 := (ih rest hr hvr).2 x (k + 1) prog h
            rw [h2]
            have hxx : (fun y => y == x) x = true := by simp
            have ht : ((x :: rest).takeWhile (fun y => y == x)).length =
                1 + (rest.takeWhile (fun y => y == x)).length := by
              simp [List.takeWhile_cons, hxx]
              omega
            have hd : (x :: rest).dropWhile (fun y => y == x) =
                rest.dropWhile (fun y => y == x) := by
              simp [List.dropWhile_cons, hxx]
            rw [ht, hd]
            have harith : k + 1 + (rest.takeWhile (fun y => y == x)).length =
                k + (1 + (rest.takeWhile (fun y => y == x)).length) := by
              omega
            rw [harith]
        · rw [if_neg hx] at h
          have hxc : (x == c) = false := by simp [hx]
          have ht : (x :: rest).takeWhile (fun y => y == c) = [] := by
            simp [List.takeWhile_cons, hxc]
          have hd : (x :: rest).dropWhile (fun y => y == c) = x :: rest := by
            simp [List.dropWhile_cons, hxc]
          rw [ht, hd]
          by_cases hf : isFoldChar x
          · rw [if_pos hf] at h
            cases hb : buildRaw rest (some (x, 1)) with
            | error e => rw [hb] at h; simp [Except.map] at h
            | ok prog2 =>
              rw [hb] at h
              simp only [Except.map, Except.ok.injEq] at h
              have h2 := (ih rest hr hvr).2 x 1 prog2 hb
              rw [← h, h2]
              simp [specRLE, hf]
          · rw [if_neg hf] at h
            cases hb : buildRaw rest none with
            | error e => rw [hb] at h; simp [Except.map] at h
            | ok prog3 =>
              rw [hb] at h
              simp only [Except.map, Except.ok.injEq] at h
              have h1 := (ih rest hr hvr).1 prog3 hb
              rw [← h, h1]
              simp [specRLE, hf]

/-! ## Claim C8 -/

/-- Claim C8: a run of identical folding characters longer than the repeat
count's maximum (255, the `u8` payload) makes the builder fail — the
checked `streak += 1` panics with an add-with-overflow — and whenever the
builder succeeds, the program it emits is exactly the run-length encoding of
the instruction stream with the true run lengths, so no instruction ever
carries an incorrect count.  (Of the three allowed policies — saturate,
split, fail — the code implements fail.) -/
theorem c8_overlong_runs :
    (∀ c, isFoldChar c = true → ∀ k, 256 ≤ k →
      loadIR (List.replicate k c) = .error .addOverflow) ∧
    (∀ cs prog, loadIR cs = .ok prog → prog = specRLE (filterValid cs)) := by
  constructor
  · intro c hc k hk
    rw [loadIR_eq_raw]
    have hval := isFoldChar_valid hc
    obtain ⟨m, rfl⟩ : ∃ m, k = m + 1 := ⟨k - 1, by omega⟩
    have hrec := buildRaw_run_overflow c hval m 1 (by omega) (by omega)
    simp [List.replicate_succ, buildRaw, hval, hc, hrec]
  · intro cs prog h
    rw [loadIR_eq_raw, buildRaw_filter] at h
    refine (buildRaw_specRLE_aux (filterValid cs).length (filterValid cs)
      (Nat.le_refl _) ?_).1 prog h
    intro x hx
    simp only [filterValid, List.mem_filter] at hx
    exact hx.2

/-- Witness for C8: a run of 256 `+` fails the build with the
add-with-overflow panic, and the program built from `++>` is the exact
run-length encoding of that stream. -/
theorem c8_overlong_runs_witness :
    loadIR (List.replicate 256 '+') = .error .addOverflow ∧
    ([⟨.IncrementByte, some 2⟩, ⟨.IncrementPointer, some 1⟩] :
        List IRInstruction) =
      specRLE (filterValid ['+', '+', '>']) := by
  constructor
  · exact c8_overlong_runs.1 '+' (by decide) 256 (by decide)
  · refine c8_overlong_runs.2 ['+', '+', '>'] _ ?_
    rw [loadIR_eq_raw]
    rfl

/-! ## Claim C10 -/

theorem foldKindOf_isFold (c : Char) : isFoldKind (foldKindOf c) = true := by
  simp only [foldKindOf]
  split_ifs <;> decide

theorem ioKindOf_not_fold (c : Char) : isFoldKind (ioKindOf c) = false := by
  simp only [ioKindOf]
  split_ifs <;> decide

theorem operandInv_io (c : Char) : OperandInv ⟨ioKindOf c, none⟩ := by
  refine ⟨fun hf => ?_, fun _ => rfl, fun n hn => by cases hn⟩
  rw [ioKindOf_not_fold] at hf
  cases hf

theorem accNoneInv : ∀ (c : Char) (k : Nat),
    (none : Option (Char × Nat)) = some (c, k) → 1 ≤ k ∧ k ≤ 255 :=
  fun _ _ hck => by cases hck

theorem buildRaw_operand :
    ∀ (l : List Char) (acc : Option (Char × Nat)) prog,
      buildRaw l acc = .ok prog →
      (∀ c k, acc = some (c, k) → 1 ≤ k ∧ k ≤ 255) →
      ∀ inst, inst ∈ prog → OperandInv inst := by
  intro l
  induction l with
  | nil =>
    intro acc prog h hacc inst hm
    cases acc with
    | none =>
      simp only [buildRaw] at h
      cases h
      simp at hm
    | some p =>
      obtain ⟨c, k⟩ := p
      simp only [buildRaw] at h
      cases h
      simp only [List.mem_singleton] at hm
      subst hm
      obtain ⟨h1, h2⟩ := hacc c k rfl
      refine ⟨fun _ => rfl, fun hf => ?_, fun n hn => ?_⟩
      · rw [foldKindOf_isFold] at hf
        cases hf
      · simp only [Option.some.injEq] at hn
        subst hn
        exact ⟨h1, h2⟩
  | cons x rest ih =>
    intro acc prog h hacc inst hm
    by_cases hv : isValidInstruction x
    · cases acc with
      | none =>
        simp only [buildRaw, hv, if_true] at h
        by_cases hf : isFoldChar x
        · rw [if_pos hf] at h
          refine ih _ prog h ?_ inst hm
          intro c k hck
          injection hck with hck
          injection hck with hc hk
          subst hk
          exact ⟨Nat.le_refl _, by omega⟩
        · rw [if_neg hf] at h
          cases hb : buildRaw rest none with
          | error e => rw [hb] at h; simp [Except.map] at h
          | ok prog2 =>
            rw [hb] at h
            simp only [Except.map, Except.ok.injEq] at h
            subst h
            rcases List.mem_cons.mp hm with hi | hi
            · subst hi
              exact operandInv_io x
            · exact ih none prog2 hb accNoneInv inst hi
      | some p =>
        obtain ⟨c, k⟩ := p
        simp only [buildRaw, hv, if_true] at h
        by_cases hx : x = c
        · rw [if_pos hx] at h
          by_cases hk : k = 255
          · rw [if_pos hk] at h
            cases h
          · rw [if_neg hk] at h
            refine ih _ prog h ?_ inst hm
            intro c' k' hck
            injection hck with hck
            injection hck with hc hk'
            subst hk'
            obtain ⟨ha, hb⟩ := hacc c k rfl
            exact ⟨by omega, by omega⟩
        · rw [if_neg hx] at h
          cases hb : (if isFoldChar x then buildRaw rest (some (x, 1))
              else (buildRaw rest none).map
                (fun prog => ⟨ioKindOf x, none⟩ :: prog)) with
          | error e => rw [hb] at h; simp [Except.map] at h
          | ok prog2 =>
            rw [hb] at h
            simp only [Except.map, Except.ok.injEq] at h
            subst h
            rcases List.mem_cons.mp hm with hi | hi
            · subst hi
              obtain ⟨h1, h2⟩ := hacc c k rfl
              refine ⟨fun _ => rfl, fun hf => ?_, fun n hn => ?_⟩
              · rw [foldKindOf_isFold] at hf
                cases hf
              · simp only [Option.some.injEq] at hn
                subst hn
                exact ⟨h1, h2⟩
            · by_cases hf : isFoldChar x
              · rw [if_pos hf] at hb
                refine ih _ prog2 hb ?_ inst hi
                intro c' k' hck
                injection hck with hck
                injection hck with hc hk'
                subst hk'
                exact ⟨Nat.le_refl _, by omega⟩
              · rw [if_neg hf] at hb
                cases hb2 : buildRaw rest none with
                | error e => rw [hb2] at hb; simp [Except.map] at hb
                | ok prog3 =>
                  rw [hb2] at hb
                  simp only [Except.map, Except.ok.injEq] at hb
                  subst hb
                  rcases List.mem_cons.mp hi with hi2 | hi2
                  · subst hi2
                    exact operandInv_io x
                  · exact ih none prog3 hb2 accNoneInv inst hi2
    · simp only [buildRaw, hv, if_false] at h
      exact ih acc prog h hacc inst hm

theorem execInst_fold_no_unwrap {inst : IRInstruction}
    (hk : isFoldKind inst.kind = true) {n : Nat}
    (hop : inst.operand = some n) :
    ∀ jm st out, execInst inst jm st ≠ .error ⟨.unwrapNone, out⟩ := by
  intro jm st out heq
  obtain ⟨kind, op⟩ := inst
  simp only at hop
  subst hop
  cases kind with
  | IncrementPointer =>
    simp only [execInst] at heq
    split at heq <;> simp_all
  | DecrementPointer =>
    simp only [execInst] at heq
    split at heq <;> simp_all
  | IncrementByte =>
    simp only [execInst] at heq
    split at heq
    · split at heq <;> simp_all
    · simp_all
  | DecrementByte =>
    simp only [execInst] at heq
    split at heq
    · split at heq <;> simp_all
    · simp_all
  | PrintByteAsChar => simp [isFoldKind] at hk
  | ReadInputToByte => simp [isFoldKind] at hk
  | JumpIfZero => simp [isFoldKind] at hk
  | JumpIfNotZero => simp [isFoldKind] at hk

/-- Claim C10: in every program the builder produces, the four pointer/cell
kinds carry `some n` with `n ≥ 1` (and `n ≤ 255`), all other kinds carry
`none`; consequently the engine's `inst.operand.unwrap()` in the four
pointer/cell arms can never be the panicking unwrap. -/
theorem c10_operand_invariant (cs : List Char) (prog : List IRInstruction)
    (h : loadIR cs = .ok prog) :
    ∀ inst, inst ∈ prog →
      OperandInv inst ∧
      (isFoldKind inst.kind = true →
        ∀ jm st out, execInst inst jm st ≠ .error ⟨.unwrapNone, out⟩) := by
  intro inst hm
  rw [loadIR_eq_raw] at h
  have hop : OperandInv inst :=
    buildRaw_operand cs none prog h accNoneInv inst hm
  refine ⟨hop, fun hf => ?_⟩
  obtain ⟨n, hn⟩ := Option.isSome_iff_exists.mp (hop.1 hf)
  exact execInst_fold_no_unwrap hf hn

/-- Witness for C10 on the program `>.`: the move instruction carries a
payload and its dispatch is never the unwrap panic. -/
theorem c10_operand_invariant_witness :
    (⟨IRInstructionKind.IncrementPointer, some 1⟩ :
      IRInstruction).operand.isSome = true ∧
    execInst ⟨.IncrementPointer, some 1⟩ [] (initState []) ≠
      .error ⟨.unwrapNone, []⟩ := by
  have h := c10_operand_invariant ['>', '.']
    [⟨.IncrementPointer, some 1⟩, ⟨.PrintByteAsChar, none⟩]
    (by rw [loadIR_eq_raw]; rfl)
    ⟨.IncrementPointer, some 1⟩ (by simp)
  exact ⟨h.1.1 (by decide), h.2 (by decide) [] (initState []) []⟩

/-! ## Claim C9 -/

/-- Claim C9: invoked with no program-path argument, the binary prints the
usage error and the no-program-provided error to standard error and exits
with code 1, and does not go on to load or execute anything. -/
theorem c9_no_args (args : List String) (h : args.length ≤ 1) :
    runMain args = .earlyExit [usageMsg, noProgramMsg] 1 ∧
    ∀ path, runMain args ≠ .runProgram path := by
  match args with
  | [] => exact ⟨rfl, fun path h' => by simp [runMain] at h'⟩
  | [a] => exact ⟨rfl, fun path h' => by simp [runMain] at h'⟩
  | a :: b :: t => simp at h

/-- Witness for C9 at the concrete argument list `["./sac"]`. -/
theorem c9_no_args_witness :
    runMain (["./sac"]) = .earlyExit [usageMsg, noProgramMsg] 1 ∧
    runMain (["./sac"]) ≠ .runProgram demoPath :=
  ⟨(c9_no_args (["./sac"]) (by decide)).1,
   (c9_no_args (["./sac"]) (by decide)).2 demoPath⟩

/-! ## Claim C1 -/

set_option maxRecDepth 40000 in
/-- Claim C1, evaluated on the code: cell arithmetic does not wrap modulo
256 — with Rust's checked arithmetic (the default build profile), the
decrement of a cell holding 0 panics with a subtract-with-overflow instead
of yielding 255, and the increment of a cell holding 255 panics with an
add-with-overflow instead of yielding 0.  (`self.memory[p] += n` /
`-= n` on `u8`, interpreter.rs lines 169–170, instead of a wrapping
operation.) -/
theorem c1_cell_arith_panics :
    interpretSrc 1 decProgram [] = .error ⟨.subOverflow, []⟩ ∧
    interpretSrc 4 incOverflowProgram [] = .error ⟨.addOverflow, []⟩ := by
  constructor
  · rw [interpretSrc_eq_raw]
    rfl
  · rw [interpretSrc_eq_raw]
    rfl

/-! ## Theorems: one-step unfoldings of the engine dispatch -/

theorem execInst_incPtr (n : Nat) (jm : List (Nat × Nat)) (st : IState) :
    execInst ⟨.IncrementPointer, some n⟩ jm st =
      if st.mp + n < USIZE_BOUND then .ok { st with mp := st.mp + n }
      else .error ⟨.addOverflow, st.output⟩ := rfl

theorem execInst_decPtr (n : Nat) (jm : List (Nat × Nat)) (st : IState) :
    execInst ⟨.DecrementPointer, some n⟩ jm st =
      if n ≤ st.mp then .ok { st with mp := st.mp - n }
      else .error ⟨.subOverflow, st.output⟩ := rfl

theorem execInst_incByte (n : Nat) (jm : List (Nat × Nat)) (st : IState) :
    execInst ⟨.IncrementByte, some n⟩ jm st =
      if st.mp < TOTAL_MEMORY_SIZE then
        if st.mem st.mp + n ≤ 255 then
          .ok { st with mem := writeMem st.mem st.mp (st.mem st.mp + n) }
        else .error ⟨.addOverflow, st.output⟩
      else .error ⟨.indexOutOfBounds, st.output⟩ := rfl

theorem execInst_decByte (n : Nat) (jm : List (Nat × Nat)) (st : IState) :
    execInst ⟨.DecrementByte, some n⟩ jm st =
      if st.mp < TOTAL_MEMORY_SIZE then
        if n ≤ st.mem st.mp then
          .ok { st with mem := writeMem st.mem st.mp (st.mem st.mp - n) }
        else .error ⟨.subOverflow, st.output⟩
      else .error ⟨.indexOutOfBounds, st.output⟩ := rfl

theorem execInst_print (op : Option Nat) (jm : List (Nat × Nat))
    (st : IState) :
    execInst ⟨.PrintByteAsChar, op⟩ jm st =
      if st.mp < TOTAL_MEMORY_SIZE then
        .ok { st with output := st.output ++ [st.mem st.mp] }
      else .error ⟨.indexOutOfBounds, st.output⟩ := rfl

theorem execInst_read (op : Option Nat) (jm : List (Nat × Nat))
    (st : IState) :
    execInst ⟨.ReadInputToByte, op⟩ jm st =
      match st.input with
      | [] => .error ⟨.stdinReadFailed, st.output⟩
      | b :: rest =>
        if st.mp < TOTAL_MEMORY_SIZE then
          .ok { st with mem := writeMem st.mem st.mp b, input := rest }
        else .error ⟨.indexOutOfBounds, st.output⟩ := rfl

theorem execInst_jz (op : Option Nat) (jm : List (Nat × Nat)) (st : IState) :
    execInst ⟨.JumpIfZero, op⟩ jm st =
      if st.mp < TOTAL_MEMORY_SIZE then
        if st.mem st.mp = 0 then
          match jmGet jm st.ip with
          | none => .error ⟨.unwrapNone, st.output⟩
          | some t => .ok { st with ip := t }
        else .ok st
      else .error ⟨.indexOutOfBounds, st.output⟩ := rfl

theorem execInst_jnz (op : Option Nat) (jm : List (Nat × Nat))
    (st : IState) :
    execInst ⟨.JumpIfNotZero, op⟩ jm st =
      if st.mp < TOTAL_MEMORY_SIZE then
        if st.mem st.mp = 0 then .ok st
        else
          match jmGet jm st.ip with
          | none => .error ⟨.unwrapNone, st.output⟩
          | some t => .ok { st with ip := t }
      else .error ⟨.indexOutOfBounds, st.output⟩ := rfl

theorem writeMem_self (mem : Nat → Nat) (i v : Nat) :
    writeMem mem i v i = v := by
  simp [writeMem]

theorem writeMem_writeMem (mem : Nat → Nat) (i a b : Nat) :
    writeMem (writeMem mem i a) i b = writeMem mem i b := by
  funext j
  simp only [writeMem]
  by_cases h : j = i <;> simp [h]

/-! ## Theorems: run-length folding (claim C5) -/

theorem buildRaw_replicate_ok (c : Char)
    (hval : isValidInstruction c = true) :
    ∀ m j, j + m ≤ 255 →
      buildRaw (List.replicate m c) (some (c, j)) =
        .ok [⟨foldKindOf c, some (j + m)⟩] := by
  intro m
  induction m with
  | zero =>
    intro j hj
    simp [buildRaw]
  | succ m ih =>
    intro j hj
    have hk : ¬ j = 255 := by omega
    have hrec := ih (j + 1) (by omega)
    have e1 : j + 1 + m = j + (m + 1) := by omega
    rw [e1] at hrec
    simp [List.replicate_succ, buildRaw, hval, hk, hrec]

theorem loadIR_replicate (c : Char) (hc : isFoldChar c = true)
    (k : Nat) (h1 : 1 ≤ k) (h255 : k ≤ 255) :
    loadIR (List.replicate k c) = .ok [⟨foldKindOf c, some k⟩] := by
  rw [loadIR_eq_raw]
  have hval := isFoldChar_valid hc
  obtain ⟨m, rfl⟩ : ∃ m, k = m + 1 := ⟨k - 1, by omega⟩
  have hrec := buildRaw_replicate_ok c hval m 1 (by omega)
  have e1 : 1 + m = m + 1 := by omega
  rw [e1] at hrec
  simp [List.replicate_succ, buildRaw, hval, hc, hrec]

theorem execInst_fold_succ {K : IRInstructionKind}
    (hK : isFoldKind K = true) (m : Nat) (jm : List (Nat × Nat))
    (st : IState) :
    execInst ⟨K, some (m + 1)⟩ jm st =
      match execInst ⟨K, some 1⟩ jm st with
      | .error e => .error e
      | .ok s => execInst ⟨K, some m⟩ jm s := by
  cases K with
  | IncrementPointer =>
    rw [execInst_incPtr 1]
    by_cases h1 : st.mp + 1 < USIZE_BOUND
    · rw [if_pos h1]
      have e1 : st.mp + 1 + m = st.mp + (m + 1) := by omega
      simp [execInst_incPtr, e1]
    · rw [if_neg h1]
      have h2 : ¬ st.mp + (m + 1) < USIZE_BOUND := by omega
      simp [execInst_incPtr, h2]
  | DecrementPointer =>
    rw [execInst_decPtr 1]
    by_cases h1 : 1 ≤ st.mp
    · rw [if_pos h1]
      by_cases hm : m + 1 ≤ st.mp
      · have h2 : m ≤ st.mp - 1 := by omega
        have e1 : st.mp - 1 - m = st.mp - (m + 1) := by omega
        simp [execInst_decPtr, hm, h2, e1]
      · have h2 : ¬ m ≤ st.mp - 1 := by omega
        simp [execInst_decPtr, hm, h2]
    · rw [if_neg h1]
      have h2 : ¬ m + 1 ≤ st.mp := by omega
      simp [execInst_decPtr, h2]
  | IncrementByte =>
    rw [execInst_incByte 1]
    by_cases hcap : st.mp < TOTAL_MEMORY_SIZE
    · rw [if_pos hcap]
      by_cases hv1 : st.mem st.mp + 1 ≤ 255
      · rw [if_pos hv1]
        by_cases hvm : st.mem st.mp + (m + 1) ≤ 255
        · have hv2 : st.mem st.mp + 1 + m ≤ 255 := by omega
          have e1 : st.mem st.mp + 1 + m = st.mem st.mp + (m + 1) := by
            omega
          simp [execInst_incByte, hcap, hvm, hv2, writeMem_self,
            writeMem_writeMem, e1]
        · have hv2 : ¬ st.mem st.mp + 1 + m ≤ 255 := by omega
          simp [execInst_incByte, hcap, hvm, hv2, writeMem_self]
      · rw [if_neg hv1]
        have hvm : ¬ st.mem st.mp + (m + 1) ≤ 255 := by omega
        simp [execInst_incByte, hcap, hvm]
    · rw [if_neg hcap]
      simp [execInst_incByte, hcap]
  | DecrementByte =>
    rw [execInst_decByte 1]
    by_cases hcap : st.mp < TOTAL_MEMORY_SIZE
    · rw [if_pos hcap]
      by_cases hv1 : 1 ≤ st.mem st.mp
      · rw [if_pos hv1]
        by_cases hvm : m + 1 ≤ st.mem st.mp
        · have hv2 : m ≤ st.mem st.mp - 1 := by omega
          have e1 : st.mem st.mp - 1 - m = st.mem st.mp - (m + 1) := by
            omega
          simp [execInst_decByte, hcap, hvm, hv2, writeMem_self,
            writeMem_writeMem, e1]
        · have hv2 : ¬ m ≤ st.mem st.mp - 1 := by omega
          simp [execInst_decByte, hcap, hvm, hv2, writeMem_self]
      · rw [if_neg hv1]
        have hvm : ¬ m + 1 ≤ st.mem st.mp := by omega
        simp [execInst_decByte, hcap, hvm]
    · rw [if_neg hcap]
      simp [execInst_decByte, hcap]
  | PrintByteAsChar => simp [isFoldKind] at hK
  | ReadInputToByte => simp [isFoldKind] at hK
  | JumpIfZero => simp [isFoldKind] at hK
  | JumpIfNotZero => simp [isFoldKind] at hK

theorem execInst_fold_ip {K : IRInstructionKind} (hK : isFoldKind K = true)
    (n : Nat) (jm : List (Nat × Nat)) (st : IState) (x : Nat) :
    execInst ⟨K, some n⟩ jm { st with ip := x } =
      (execInst ⟨K, some n⟩ jm st).map (fun s => { s with ip := x }) := by
  cases K with
  | IncrementPointer =>
    by_cases h : st.mp + n < USIZE_BOUND <;>
      simp [execInst_incPtr, h, Except.map]
  | DecrementPointer =>
    by_cases h : n ≤ st.mp <;> simp [execInst_decPtr, h, Except.map]
  | IncrementByte =>
    by_cases h : st.mp < TOTAL_MEMORY_SIZE
    · by_cases h2 : st.mem st.mp + n ≤ 255 <;>
        simp [execInst_incByte, h, h2, Except.map]
    · simp [execInst_incByte, h, Except.map]
  | DecrementByte =>
    by_cases h : st.mp < TOTAL_MEMORY_SIZE
    · by_cases h2 : n ≤ st.mem st.mp <;>
        simp [execInst_decByte, h, h2, Except.map]
    · simp [execInst_decByte, h, Except.map]
  | PrintByteAsChar => simp [isFoldKind] at hK
  | ReadInputToByte => simp [isFoldKind] at hK
  | JumpIfZero => simp [isFoldKind] at hK
  | JumpIfNotZero => simp [isFoldKind] at hK

theorem execInst_fold_ip_preserved {K : IRInstructionKind}
    (hK : isFoldKind K = true) {n : Nat} {jm : List (Nat × Nat)}
    {st s : IState} (h : execInst ⟨K, some n⟩ jm st = .ok s) :
    s.ip = st.ip := by
  cases K with
  | IncrementPointer =>
    rw [execInst_incPtr] at h
    split at h
    · cases h; rfl
    · cases h
  | DecrementPointer =>
    rw [execInst_decPtr] at h
    split at h
    · cases h; rfl
    · cases h
  | IncrementByte =>
    rw [execInst_incByte] at h
    split at h
    · split at h
      · cases h; rfl
      · cases h
    · cases h
  | DecrementByte =>
    rw [execInst_decByte] at h
    split at h
    · split at h
      · cases h; rfl
      · cases h
    · cases h
  | PrintByteAsChar => simp [isFoldKind] at hK
  | ReadInputToByte => simp [isFoldKind] at hK
  | JumpIfZero => simp [isFoldKind] at hK
  | JumpIfNotZero => simp [isFoldKind] at hK

theorem get?_replicate_of_lt {α : Type} (a : α) :
    ∀ k i, i < k → (List.replicate k a).get? i = some a := by
  intro k
  induction k with
  | zero => intro i h; omega
  | succ k ih =>
    intro i h
    cases i with
    | zero => simp [List.replicate_succ]
    | succ i =>
      simp only [List.replicate_succ, List.get?_cons_succ]
      exact ih i (by omega)

theorem steps_replicate {K : IRInstructionKind} (hK : isFoldKind K = true)
    (k : Nat) (jm : List (Nat × Nat)) :
    ∀ m st, 1 ≤ m → st.ip + m = k →
      steps (List.replicate k ⟨K, some 1⟩) jm m st =
        (execInst ⟨K, some m⟩ jm st).map (fun s => { s with ip := k }) := by
  intro m
  induction m with
  | zero => intro st h1 _; omega
  | succ m ih =>
    intro st h1 hip
    have hlt : st.ip < k := by omega
    have hget := get?_replicate_of_lt (⟨K, some 1⟩ : IRInstruction) k st.ip hlt
    rw [steps, hget]
    dsimp only
    cases m with
    | zero =>
      cases hex : execInst ⟨K, some 1⟩ jm st with
      | error f => simp [Except.map]
      | ok s =>
        have hips := execInst_fold_ip_preserved hK hex
        have hik : s.ip + 1 = k := by omega
        simp only [steps, Except.map]
        rw [hik]
    | succ m =>
      rw [execInst_fold_succ hK (m + 1) jm st]
      cases hex : execInst ⟨K, some 1⟩ jm st with
      | error f => simp [Except.map]
      | ok s =>
        have hips := execInst_fold_ip_preserved hK hex
        have hrec := ih { s with ip := s.ip + 1 } (by omega)
          (by simp; omega)
        dsimp only
        rw [hrec, execInst_fold_ip hK (m + 1) jm s (s.ip + 1)]
        cases execInst ⟨K, some (m + 1)⟩ jm s <;> simp [Except.map]

theorem steps_single_fold {K : IRInstructionKind} (hK : isFoldKind K = true)
    (n : Nat) (jm : List (Nat × Nat)) (st : IState) (h0 : st.ip = 0) :
    steps [⟨K, some n⟩] jm 1 st =
      (execInst ⟨K, some n⟩ jm st).map (fun s => { s with ip := 1 }) := by
  rw [steps]
  have hget : ([⟨K, some n⟩] : List IRInstruction).get? st.ip =
      some ⟨K, some n⟩ := by rw [h0]; rfl
  rw [hget]
  dsimp only
  cases hex : execInst ⟨K, some n⟩ jm st with
  | error f => simp [Except.map]
  | ok s =>
    have hips := execInst_fold_ip_preserved hK hex
    simp only [steps, Except.map]
    have hik : s.ip + 1 = 1 := by omega
    rw [hik]

theorem runPT_set_ip (e : Except Failure IState) (x : Nat) :
    runPT (e.map (fun s => { s with ip := x })) = runPT e := by
  cases e <;> rfl

/-- Claim C5: for every folding character and every `1 ≤ k ≤ 255` (the
folding bound), the builder folds a run of `k` identical characters into the
single instruction with count `k`, and executing that folded instruction
yields exactly the same pointer/tape outcome — including the same failure,
if any — as executing the `k` corresponding single-character instructions
sequentially. -/
theorem c5_fold_equiv (c : Char) (k : Nat) (hc : isFoldChar c = true)
    (h1 : 1 ≤ k) (h255 : k ≤ 255) :
    loadIR (List.replicate k c) = .ok [⟨foldKindOf c, some k⟩] ∧
    ∀ jm st, st.ip = 0 →
      runPT (steps (List.replicate k ⟨foldKindOf c, some 1⟩) jm k st) =
      runPT (steps [⟨foldKindOf c, some k⟩] jm 1 st) := by
  refine ⟨loadIR_replicate c hc k h1 h255, ?_⟩
  intro jm st h0
  have hK := foldKindOf_isFold c
  rw [steps_replicate hK k jm k st h1 (by omega),
    steps_single_fold hK k jm st h0, runPT_set_ip, runPT_set_ip]

/-- Witness for C5 at `c := '+'`, `k := 2`, the initial state. -/
theorem c5_fold_equiv_witness :
    loadIR (List.replicate 2 '+') =
      .ok [⟨.IncrementByte, some 2⟩] ∧
    runPT (steps (List.replicate 2 ⟨.IncrementByte, some 1⟩) [] 2
        (initState [])) =
      runPT (steps [⟨.IncrementByte, some 2⟩] [] 1 (initState [])) := by
  have h := c5_fold_equiv '+' 2 (by decide) (by decide) (by decide)
  exact ⟨h.1, h.2 [] (initState []) rfl⟩

/-! ## Claim C2 -/

/-- Flushing the pending run: on a valid character that does not extend the
run, the builder emits the folded instruction and continues as if it had no
pending run. -/
theorem buildRaw_flush (x : Char) (rest : List Char) (c : Char) (k : Nat)
    (hv : isValidInstruction x = true) (hx : ¬ x = c) :
    buildRaw (x :: rest) (some (c, k)) =
      (buildRaw (x :: rest) none).map
        (fun prog => ⟨foldKindOf c, some k⟩ :: prog) := by
  simp only [buildRaw, hv, if_true, hx, if_false]

theorem buildRaw_cons_fold (x : Char) (rest : List Char)
    (hv : isValidInstruction x = true) (hf : isFoldChar x = true) :
    buildRaw (x :: rest) none = buildRaw rest (some (x, 1)) := by
  simp [buildRaw, hv, hf]

/-- Pushing a run of `m` copies of `c` through the builder only grows the
pending streak. -/
theorem buildRaw_run_prefix (c : Char)
    (hval : isValidInstruction c = true) :
    ∀ m j rest, j + m ≤ 255 →
      buildRaw (List.replicate m c ++ rest) (some (c, j)) =
        buildRaw rest (some (c, j + m)) := by
  intro m
  induction m with
  | zero => intro j rest hj; simp
  | succ m ih =>
    intro j rest hj
    have hk : ¬ j = 255 := by omega
    have hrec := ih (j + 1) rest (by omega)
    have e1 : j + 1 + m = j + (m + 1) := by omega
    rw [e1] at hrec
    simp [List.replicate_succ, buildRaw, hval, hk, hrec]

theorem cexText_build : ∀ m, buildRaw (cexBlockText m) none =
    .ok (cexProgN m) := by
  intro m
  induction m with
  | zero => rfl
  | succ m ih =>
    have htail : buildRaw (cexBlockText m) (some ('<', 1)) =
        .ok (⟨.DecrementPointer, some 1⟩ :: cexProgN m) := by
      cases m with
      | zero => rfl
      | succ m' =>
        have hcons : cexBlockText (m' + 1) =
            '>' :: (List.replicate 254 '>' ++ '<' :: cexBlockText m') := rfl
        rw [hcons, buildRaw_flush '>' _ '<' 1 (by decide) (by decide),
          ← hcons, ih]
        rfl
    have hcons : cexBlockText (m + 1) =
        '>' :: (List.replicate 254 '>' ++ '<' :: cexBlockText m) := rfl
    rw [hcons, buildRaw_cons_fold '>' _ (by decide) (by decide),
      buildRaw_run_prefix '>' (by decide) 254 1 ('<' :: cexBlockText m)
        (by omega)]
    show buildRaw ('<' :: cexBlockText m) (some ('>', 255)) = _
    rw [buildRaw_flush '<' (cexBlockText m) '>' 255 (by decide) (by decide),
      buildRaw_cons_fold '<' _ (by decide) (by decide), htail]
    rfl

theorem cexProgN_get : ∀ m i, i < 2 * m →
    (cexProgN m).get? i =
      some (if i % 2 = 0 then ⟨.IncrementPointer, some 255⟩
        else ⟨.DecrementPointer, some 1⟩) := by
  intro m
  induction m with
  | zero => intro i h; omega
  | succ m ih =>
    intro i h
    match i with
    | 0 => rfl
    | 1 => rfl
    | (i + 2) =>
      show (cexProgN m).get? i = _
      rw [ih i (by omega)]
      have e1 : (i + 2) % 2 = i % 2 := by omega
      rw [e1]

theorem cexProgN_len : ∀ m, (cexProgN m).length = 2 * m := by
  intro m
  induction m with
  | zero => rfl
  | succ m ih => simp [cexProgN, ih]; omega

theorem cexProgN_no_jumps : ∀ m inst, inst ∈ cexProgN m →
    inst.kind ≠ .JumpIfZero ∧ inst.kind ≠ .JumpIfNotZero := by
  intro m
  induction m with
  | zero => intro inst h; simp [cexProgN] at h
  | succ m ih =>
    intro inst h
    simp only [cexProgN, List.mem_cons] at h
    rcases h with rfl | rfl | h
    · exact ⟨by decide, by decide⟩
    · exact ⟨by decide, by decide⟩
    · exact ih inst h

theorem pjGo_no_jumps : ∀ (l : List IRInstruction) p s jmm,
    (∀ inst ∈ l, inst.kind ≠ .JumpIfZero ∧ inst.kind ≠ .JumpIfNotZero) →
    pjGo l p s jmm = .ok jmm := by
  intro l
  induction l with
  | nil => intro p s jmm h; rfl
  | cons inst rest ih =>
    intro p s jmm h
    obtain ⟨h1, h2⟩ := h inst (by simp)
    have hrest : ∀ i ∈ rest, i.kind ≠ .JumpIfZero ∧ i.kind ≠ .JumpIfNotZero :=
      fun i hi => h i (by simp [hi])
    cases hk : inst.kind with
    | JumpIfZero => exact absurd hk h1
    | JumpIfNotZero => exact absurd hk h2
    | IncrementPointer => simp only [pjGo, hk]; exact ih _ _ _ hrest
    | DecrementPointer => simp only [pjGo, hk]; exact ih _ _ _ hrest
    | IncrementByte => simp only [pjGo, hk]; exact ih _ _ _ hrest
    | DecrementByte => simp only [pjGo, hk]; exact ih _ _ _ hrest
    | PrintByteAsChar => simp only [pjGo, hk]; exact ih _ _ _ hrest
    | ReadInputToByte => simp only [pjGo, hk]; exact ih _ _ _ hrest

theorem cex_run (jm : List (Nat × Nat)) :
    ∀ r (st : IState), r ≤ 394 → st.ip = 2 * (394 - r) →
      st.mp = 254 * (394 - r) →
      steps cexProg jm (2 * r) st =
        .ok { st with ip := 788, mp := 100076 } := by
  intro r
  induction r with
  | zero =>
    intro st hr hip hmp
    obtain ⟨ip, mp, mem, inp, out⟩ := st
    simp only at hip hmp
    have h1 : ip = 788 := by omega
    have h2 : mp = 100076 := by omega
    subst h1
    subst h2
    rfl
  | succ r ih =>
    intro st hr hip hmp
    obtain ⟨ip, mp, mem, inp, out⟩ := st
    simp only at hip hmp
    have hfuel : 2 * (r + 1) = (2 * r + 1) + 1 := by omega
    rw [hfuel, steps]
    have hlt1 : ip < 2 * 394 := by omega
    have hpar1 : ip % 2 = 0 := by omega
    rw [show cexProg = cexProgN 394 from rfl, cexProgN_get 394 ip hlt1,
      if_pos hpar1]
    dsimp only
    rw [execInst_incPtr]
    have hU : 254 * 394 + 256 < USIZE_BOUND := by norm_num [USIZE_BOUND]
    rw [if_pos (show mp + 255 < USIZE_BOUND by omega)]
    dsimp only
    rw [steps]
    have hlt2 : ip + 1 < 2 * 394 := by omega
    have hpar2 : ¬ (ip + 1) % 2 = 0 := by omega
    rw [cexProgN_get 394 (ip + 1) hlt2, if_neg hpar2]
    dsimp only
    rw [execInst_decPtr]
    rw [if_pos (show 1 ≤ mp + 255 by omega)]
    dsimp only
    have hres := ih ⟨ip + 1 + 1, mp + 255 - 1, mem, inp, out⟩ (by omega)
      (by simp only; omega) (by simp only; omega)
    rw [show cexProg = cexProgN 394 from rfl] at hres
    rw [hres]

/-- Claim C2, amended: a backward move that would take the pointer below
zero does fail at that move (the checked `usize` subtraction panics); but a
forward move past the tape capacity does not itself fail — the fatal,
deterministically reported index-out-of-bounds panic only happens at the
next instruction that accesses the tape with the pointer out of range. -/
theorem c2_oob_amended :
    (∀ (st : IState) (n : Nat) (jm : List (Nat × Nat)), st.mp < n →
      execInst ⟨.DecrementPointer, some n⟩ jm st =
        .error ⟨.subOverflow, st.output⟩) ∧
    (∀ (inst : IRInstruction) (jm : List (Nat × Nat)) (st : IState),
      TOTAL_MEMORY_SIZE ≤ st.mp →
      accessesMemory inst.kind = true →
      ((inst.kind = .IncrementByte ∨ inst.kind = .DecrementByte) →
        inst.operand.isSome = true) →
      (inst.kind = .ReadInputToByte → st.input ≠ []) →
      execInst inst jm st = .error ⟨.indexOutOfBounds, st.output⟩) := by
  constructor
  · intro st n jm h
    rw [execInst_decPtr, if_neg (by omega)]
  · intro inst jm st hmp hacc hop hin
    obtain ⟨kind, op⟩ := inst
    have hcap : ¬ st.mp < TOTAL_MEMORY_SIZE := by omega
    cases kind with
    | IncrementPointer => simp [accessesMemory] at hacc
    | DecrementPointer => simp [accessesMemory] at hacc
    | IncrementByte =>
      obtain ⟨n, hn⟩ := Option.isSome_iff_exists.mp (hop (Or.inl rfl))
      subst hn
      rw [execInst_incByte, if_neg hcap]
    | DecrementByte =>
      obtain ⟨n, hn⟩ := Option.isSome_iff_exists.mp (hop (Or.inr rfl))
      subst hn
      rw [execInst_decByte, if_neg hcap]
    | PrintByteAsChar => rw [execInst_print, if_neg hcap]
    | ReadInputToByte =>
      cases hi : st.input with
      | nil => exact absurd hi (hin rfl)
      | cons b rest => simp [execInst_read, hi, hcap]
    | JumpIfZero => simp [execInst_jz, hcap]
    | JumpIfNotZero => simp [execInst_jnz, hcap]

/-- Witness for the amended C2: a backward move below zero fails at the
move; a print with the pointer exactly at the capacity fails with the
out-of-bounds panic. -/
theorem c2_oob_amended_witness :
    execInst ⟨.DecrementPointer, some 1⟩ [] (initState []) =
      .error ⟨.subOverflow, []⟩ ∧
    execInst ⟨.PrintByteAsChar, none⟩ []
        { initState [] with mp := TOTAL_MEMORY_SIZE } =
      .error ⟨.indexOutOfBounds, []⟩ := by
  constructor
  · exact c2_oob_amended.1 (initState []) 1 [] (by decide)
  · exact c2_oob_amended.2 ⟨.PrintByteAsChar, none⟩ []
      { initState [] with mp := TOTAL_MEMORY_SIZE }
      (by decide) (by decide) (by decide) (by decide)

/-- Counterexample to claim C2 as stated: the program of 394 blocks of
`>`·255 `<` (built by the real pipeline) moves the pointer to 100076 —
outside `[0, TOTAL_MEMORY_SIZE)` — and the run does not fail at those moves
or anywhere: it terminates normally (final cursor 788 = program length)
with the pointer still out of range. -/
theorem c2_oob_counterexample :
    loadIR (cexBlockText 394) = .ok cexProg ∧
    cexProg.length = 788 ∧
    finalPtr (interpretIR (2 * 394) cexProg []) = some (100076, 788) ∧
    TOTAL_MEMORY_SIZE ≤ 100076 := by
  refine ⟨?_, ?_, ?_, by decide⟩
  · rw [loadIR_eq_raw]
    exact cexText_build 394
  · exact cexProgN_len 394
  · have hpj : precomputeJumps cexProg = .ok [] :=
      pjGo_no_jumps cexProg 0 [] [] (cexProgN_no_jumps 394)
    simp only [interpretIR, hpj]
    rw [cex_run [] 394 (initState []) (by omega) (by rfl) (by rfl)]
    rfl

/-! ## Theorems: bracket depth and classic matching (claims C3, C4) -/

theorem depthAt_zero (prog : List IRInstruction) : depthAt prog 0 = 0 := by
  simp [depthAt]

theorem kindAt_lt {prog : List IRInstruction} {i : Nat}
    {k : IRInstructionKind} (h : kindAt prog i = some k) :
    i < prog.length := by
  by_contra hge
  have hnone : prog.get? i = none := List.get?_eq_none.mpr (by omega)
  simp only [kindAt, hnone, Option.map_none'] at h
  exact Option.noConfusion h

theorem kindAt_get {prog : List IRInstruction} {i : Nat}
    {k : IRInstructionKind} (h : kindAt prog i = some k) :
    ∃ inst, prog.get? i = some inst ∧ inst.kind = k := by
  simp only [kindAt] at h
  rwa [Option.map_eq_some'] at h

theorem kindAt_of_get {prog : List IRInstruction} {i : Nat}
    {inst : IRInstruction} (h : prog.get? i = some inst) :
    kindAt prog i = some inst.kind := by
  simp only [kindAt, h, Option.map_some']

theorem depthAt_succ {prog : List IRInstruction} {n : Nat}
    {inst : IRInstruction} (h : prog.get? n = some inst) :
    depthAt prog (n + 1) = depthAt prog n + bracketDelta inst.kind := by
  have hg : prog[n]? = some inst := by rwa [← List.get?_eq_getElem?]
  rw [depthAt, depthAt, List.take_succ, hg]
  simp

theorem depth_after {prog : List IRInstruction} {j : Nat}
    {k : IRInstructionKind} (h : kindAt prog j = some k) :
    depthAt prog (j + 1) = depthAt prog j + bracketDelta k := by
  obtain ⟨inst, hget, hk⟩ := kindAt_get h
  rw [depthAt_succ hget, hk]

theorem matched_right_unique {prog : List IRInstruction} {i j j' : Nat}
    (h1 : Matched prog i j) (h2 : Matched prog i j') : j = j' := by
  obtain ⟨hi1, hj1, hij1, hd1, hm1⟩ := h1
  obtain ⟨hi2, hj2, hij2, hd2, hm2⟩ := h2
  by_contra hne
  rcases Nat.lt_or_ge j j' with hlt | hge
  · have hstep := depth_after hj1
    have hcond := hm2 (j + 1) (by omega) (by omega)
    simp [bracketDelta] at hstep
    linarith
  · have hlt : j' < j := by omega
    have hstep := depth_after hj2
    have hcond := hm1 (j' + 1) (by omega) (by omega)
    simp [bracketDelta] at hstep
    linarith

theorem matched_left_unique {prog : List IRInstruction} {i i' j : Nat}
    (h1 : Matched prog i j) (h2 : Matched prog i' j) : i = i' := by
  obtain ⟨hi1, hj1, hij1, hd1, hm1⟩ := h1
  obtain ⟨hi2, hj2, hij2, hd2, hm2⟩ := h2
  by_contra hne
  rcases Nat.lt_or_ge i i' with hlt | hge
  · have hcond := hm1 i' (by omega) (by omega)
    linarith
  · have hlt : i' < i := by omega
    have hcond := hm2 i (by omega) (by omega)
    linarith

theorem jmGet_cons_hit {rest : List (Nat × Nat)} {x y a : Nat}
    (h : x = a) : jmGet ((x, y) :: rest) a = some y := by
  subst h
  simp [jmGet, List.find?]

theorem jmGet_cons_miss {rest : List (Nat × Nat)} {x y a : Nat}
    (h : ¬ x = a) : jmGet ((x, y) :: rest) a = jmGet rest a := by
  have hb : (x == a) = false := by simp [h]
  simp [jmGet, List.find?, hb]

theorem jmGet_of_mem_unique {jm : List (Nat × Nat)} {a b : Nat}
    (hmem : (a, b) ∈ jm) (huniq : ∀ b', (a, b') ∈ jm → b' = b) :
    jmGet jm a = some b := by
  induction jm with
  | nil => simp at hmem
  | cons e rest ih =>
    obtain ⟨x, y⟩ := e
    by_cases hx : x = a
    · subst hx
      have hy : y = b := huniq y (by simp)
      subst hy
      exact jmGet_cons_hit rfl
    · rw [jmGet_cons_miss hx]
      refine ih ?_ ?_
      · rcases List.mem_cons.mp hmem with he | ht
        · exact absurd (congrArg Prod.fst he).symm hx
        · exact ht
      · exact fun b' hb' => huniq b' (by simp [hb'])

theorem jmGet_isSome_of_mem {jm : List (Nat × Nat)} {a b : Nat}
    (h : (a, b) ∈ jm) : (jmGet jm a).isSome = true := by
  induction jm with
  | nil => simp at h
  | cons e rest ih =>
    obtain ⟨x, y⟩ := e
    by_cases hx : x = a
    · rw [jmGet_cons_hit hx]
      rfl
    · rw [jmGet_cons_miss hx]
      rcases List.mem_cons.mp h with he | ht
      · exact absurd (congrArg Prod.fst he).symm hx
      · exact ih ht

theorem mem_of_jmGet {jm : List (Nat × Nat)} {a b : Nat}
    (h : jmGet jm a = some b) : (a, b) ∈ jm := by
  induction jm with
  | nil => simp [jmGet] at h
  | cons e rest ih =>
    obtain ⟨x, y⟩ := e
    by_cases hx : x = a
    · rw [jmGet_cons_hit hx] at h
      subst hx
      simp only [Option.some.injEq] at h
      subst h
      simp
    · rw [jmGet_cons_miss hx] at h
      exact List.mem_cons.mpr (Or.inr (ih h))

/-! ## Theorems: the resolver invariant -/

theorem pjinv_step_other {prog : List IRInstruction} {p : Nat}
    {stack : List Nat} {jm : List (Nat × Nat)} {inst : IRInstruction}
    (inv : PJInv prog p stack jm) (hget : prog.get? p = some inst)
    (h1 : inst.kind ≠ .JumpIfZero) (h2 : inst.kind ≠ .JumpIfNotZero) :
    PJInv prog (p + 1) stack jm := by
  obtain ⟨hp, -⟩ := List.get?_eq_some.mp hget
  have hd : depthAt prog (p + 1) = depthAt prog p := by
    rw [depthAt_succ hget]
    simp [bracketDelta, h1, h2]
  have hkp : kindAt prog p = some inst.kind := kindAt_of_get hget
  refine ⟨by omega, ?_, ?_, ?_, ?_, ?_, ?_, ?_⟩
  · intro u hu
    by_cases hup : u ≤ p
    · exact inv.nonneg u hup
    · have heq : u = p + 1 := by omega
      rw [heq, hd]
      exact inv.nonneg p (by omega)
  · rw [hd]
    exact inv.height
  · intro lvl t hlt
    obtain ⟨ha, hb, hc, hmono⟩ := inv.stk lvl t hlt
    refine ⟨ha, by omega, hc, ?_⟩
    intro m hm1 hm2
    by_cases hmp : m ≤ p
    · exact hmono m hm1 hmp
    · have heq : m = p + 1 := by omega
      rw [heq, hd]
      exact hmono p hb (by omega)
  · intro a b
    rw [inv.jm_mem a b]
    constructor
    · rintro ⟨i, j, hm, hj, hab⟩
      exact ⟨i, j, hm, by omega, hab⟩
    · rintro ⟨i, j, hm, hj, hab⟩
      refine ⟨i, j, hm, ?_, hab⟩
      by_cases hjp : j < p
      · exact hjp
      · have heq : j = p := by omega
        subst heq
        have hjk := hm.2.1
        rw [hkp] at hjk
        simp only [Option.some.injEq] at hjk
        exact absurd hjk h2
  · rw [List.take_succ]
    have hg : prog[p]? = some inst := by rwa [← List.get?_eq_getElem?]
    rw [hg]
    have hb2 : (inst.kind == IRInstructionKind.JumpIfNotZero) = false := by
      simp [h2]
    simp [List.countP_append, List.countP_cons, hb2, inv.jm_len]
  · intro t ht hk
    by_cases htp : t < p
    · exact inv.jz_covered t htp hk
    · have heq : t = p := by omega
      subst heq
      rw [hkp] at hk
      simp only [Option.some.injEq] at hk
      exact absurd hk h1
  · intro j hj hk
    by_cases hjp : j < p
    · exact inv.jnz_covered j hjp hk
    · have heq : j = p := by omega
      subst heq
      rw [hkp] at hk
      simp only [Option.some.injEq] at hk
      exact absurd hk h2

theorem pjinv_step_jz {prog : List IRInstruction} {p : Nat}
    {stack : List Nat} {jm : List (Nat × Nat)} {inst : IRInstruction}
    (inv : PJInv prog p stack jm) (hget : prog.get? p = some inst)
    (hk : inst.kind = .JumpIfZero) :
    PJInv prog (p + 1) (p :: stack) jm := by
  obtain ⟨hp, -⟩ := List.get?_eq_some.mp hget
  have hkp : kindAt prog p = some .JumpIfZero := by
    rw [kindAt_of_get hget, hk]
  have hd : depthAt prog (p + 1) = depthAt prog p + 1 := by
    rw [depthAt_succ hget, hk]
    simp [bracketDelta]
  have hh := inv.height
  refine ⟨by omega, ?_, ?_, ?_, ?_, ?_, ?_, ?_⟩
  · intro u hu
    by_cases hup : u ≤ p
    · exact inv.nonneg u hup
    · have heq : u = p + 1 := by omega
      rw [heq, hd]
      have := inv.nonneg p (by omega)
      linarith
  · simp only [List.length_cons]
    rw [hd]
    push_cast
    linarith
  · intro lvl t hlt
    have hrev : (p :: stack).reverse = stack.reverse ++ [p] := by simp
    rw [hrev] at hlt
    have hbound : lvl < stack.length + 1 := by
      obtain ⟨hb, -⟩ := List.get?_eq_some.mp hlt
      simpa using hb
    by_cases hlvl : lvl < stack.length
    · rw [List.get?_append (by simpa using hlvl)] at hlt
      obtain ⟨ha, hb, hc, hmono⟩ := inv.stk lvl t hlt
      refine ⟨ha, by omega, hc, ?_⟩
      intro m hm1 hm2
      by_cases hmp : m ≤ p
      · exact hmono m hm1 hmp
      · have heq : m = p + 1 := by omega
        rw [heq, hd]
        have hcast : (lvl : Int) < (stack.length : Int) := by
          exact_mod_cast hlvl
        linarith
    · have heq : lvl = stack.length := by omega
      subst heq
      rw [show stack.length = stack.reverse.length from
        (List.length_reverse stack).symm, List.get?_concat_length] at hlt
      simp only [Option.some.injEq] at hlt
      subst hlt
      refine ⟨hkp, by omega, ?_, ?_⟩
      · rw [← hh]
      · intro m hm1 hm2
        have heq : m = p + 1 := by omega
        rw [heq, hd, ← hh]
  · intro a b
    rw [inv.jm_mem a b]
    constructor
    · rintro ⟨i, j, hm, hj, hab⟩
      exact ⟨i, j, hm, by omega, hab⟩
    · rintro ⟨i, j, hm, hj, hab⟩
      refine ⟨i, j, hm, ?_, hab⟩
      by_cases hjp : j < p
      · exact hjp
      · have heq : j = p := by omega
        subst heq
        have hjk := hm.2.1
        rw [hkp] at hjk
        simp at hjk
  · rw [List.take_succ]
    have hg : prog[p]? = some inst := by rwa [← List.get?_eq_getElem?]
    rw [hg]
    have hb2 : (inst.kind == IRInstructionKind.JumpIfNotZero) = false := by
      simp [hk]
    simp [List.countP_append, List.countP_cons, hb2, inv.jm_len]
  · intro t ht hkz
    by_cases htp : t < p
    · rcases inv.jz_covered t htp hkz with h | h
      · exact Or.inl (List.mem_cons.mpr (Or.inr h))
      · exact Or.inr h
    · have heq : t = p := by omega
      subst heq
      exact Or.inl (by simp)
  · intro j hj hkz
    by_cases hjp : j < p
    · exact inv.jnz_covered j hjp hkz
    · have heq : j = p := by omega
      subst heq
      rw [hkp] at hkz
      simp at hkz

theorem pjinv_step_jnz {prog : List IRInstruction} {p t : Nat}
    {s : List Nat} {jm : List (Nat × Nat)} {inst : IRInstruction}
    (inv : PJInv prog p (t :: s) jm) (hget : prog.get? p = some inst)
    (hk : inst.kind = .JumpIfNotZero) :
    Matched prog t p ∧
    PJInv prog (p + 1) s ((t, p) :: (p, t) :: jm) := by
  obtain ⟨hp, -⟩ := List.get?_eq_some.mp hget
  have hkp : kindAt prog p = some .JumpIfNotZero := by
    rw [kindAt_of_get hget, hk]
  have hd : depthAt prog (p + 1) = depthAt prog p - 1 := by
    rw [depthAt_succ hget, hk]
    simp [bracketDelta, sub_eq_add_neg]
  have hh := inv.height
  simp only [List.length_cons] at hh
  push_cast at hh
  have hhead : (t :: s).reverse.get? s.length = some t := by
    rw [List.reverse_cons, show s.length = s.reverse.length from
      (List.length_reverse s).symm, List.get?_concat_length]
  obtain ⟨hkt, htp, hdt, hmono⟩ := inv.stk s.length t hhead
  have hmt : Matched prog t p := by
    refine ⟨hkt, hkp, htp, by linarith, ?_⟩
    intro m hm1 hm2
    have := hmono m hm1 hm2
    linarith
  refine ⟨hmt, by omega, ?_, ?_, ?_, ?_, ?_, ?_, ?_⟩
  · intro u hu
    by_cases hup : u ≤ p
    · exact inv.nonneg u hup
    · have heq : u = p + 1 := by omega
      rw [heq, hd]
      have hnn : (0 : Int) ≤ (s.length : Int) := Int.natCast_nonneg _
      linarith
  · rw [hd]
    linarith
  · intro lvl t' hlt
    have hbound : lvl < s.length := by
      obtain ⟨hb, -⟩ := List.get?_eq_some.mp hlt
      simpa using hb
    have hold : (t :: s).reverse.get? lvl = some t' := by
      rw [List.reverse_cons, List.get?_append (by simpa using hbound)]
      exact hlt
    obtain ⟨ha, hb, hc, hmono'⟩ := inv.stk lvl t' hold
    refine ⟨ha, by omega, hc, ?_⟩
    intro m hm1 hm2
    by_cases hmp : m ≤ p
    · exact hmono' m hm1 hmp
    · have heq : m = p + 1 := by omega
      rw [heq, hd]
      have hcast : (lvl : Int) < (s.length : Int) := by exact_mod_cast hbound
      linarith
  · intro a b
    constructor
    · intro hmem
      rcases List.mem_cons.mp hmem with he | hmem2
      · exact ⟨t, p, hmt, by omega, Or.inl he⟩
      rcases List.mem_cons.mp hmem2 with he | hmem3
      · exact ⟨t, p, hmt, by omega, Or.inr he⟩
      · obtain ⟨i, j, hm, hj, hab⟩ := (inv.jm_mem a b).mp hmem3
        exact ⟨i, j, hm, by omega, hab⟩
    · rintro ⟨i, j, hm, hj, hab⟩
      by_cases hjp : j < p
      · have hold := (inv.jm_mem a b).mpr ⟨i, j, hm, hjp, hab⟩
        exact List.mem_cons.mpr (Or.inr (List.mem_cons.mpr (Or.inr hold)))
      · have heq : j = p := by omega
        subst heq
        have hit : i = t := matched_left_unique hm hmt
        subst hit
        rcases hab with h | h
        · rw [h]
          simp
        · rw [h]
          simp
  · rw [List.take_succ]
    have hg : prog[p]? = some inst := by rwa [← List.get?_eq_getElem?]
    rw [hg]
    have hb2 : (inst.kind == IRInstructionKind.JumpIfNotZero) = true := by
      simp [hk]
    simp only [Option.toList_some, List.length_cons, List.countP_append,
      List.countP_cons, hb2, if_true, List.countP_nil]
    rw [inv.jm_len]
    omega
  · intro t'' ht'' hkz
    by_cases htp2 : t'' < p
    · rcases inv.jz_covered t'' htp2 hkz with hin | ⟨j, hj⟩
      · rcases List.mem_cons.mp hin with heqt | hin2
        · subst heqt
          exact Or.inr ⟨p, by simp⟩
        · exact Or.inl hin2
      · exact Or.inr ⟨j, by simp [hj]⟩
    · have heq : t'' = p := by omega
      subst heq
      rw [hkp] at hkz
      simp at hkz
  · intro j hj hkz
    by_cases hjp : j < p
    · obtain ⟨t', ht'⟩ := inv.jnz_covered j hjp hkz
      exact ⟨t', by simp [ht']⟩
    · have heq : j = p := by omega
      subst heq
      exact ⟨t, by simp⟩

theorem pjinv_init (prog : List IRInstruction) : PJInv prog 0 [] [] := by
  refine ⟨Nat.zero_le _, ?_, ?_, ?_, ?_, ?_, ?_, ?_⟩
  · intro u hu
    have heq : u = 0 := by omega
    rw [heq, depthAt_zero]
  · simp [depthAt_zero]
  · intro lvl t hlt
    simp at hlt
  · intro a b
    constructor
    · intro h
      simp at h
    · rintro ⟨i, j, hm, hj, hab⟩
      omega
  · simp
  · intro t ht hk
    omega
  · intro j hj hk
    omega

theorem pjGo_ok_aux (prog : List IRInstruction)
    (hpos : ∀ u, u ≤ prog.length → 0 ≤ depthAt prog u) :
    ∀ (l : List IRInstruction) (p : Nat) (stack : List Nat)
      (jm : List (Nat × Nat)), l = prog.drop p → PJInv prog p stack jm →
      ∃ stack' jm', pjGo l p stack jm = .ok jm' ∧
        PJInv prog prog.length stack' jm' := by
  intro l
  induction l with
  | nil =>
    intro p stack jm hdrop inv
    have hlen : prog.length ≤ p := List.drop_eq_nil_iff_le.mp hdrop.symm
    have heq : p = prog.length := by
      have := inv.p_le
      omega
    subst heq
    exact ⟨stack, jm, rfl, inv⟩
  | cons inst rest ih =>
    intro p stack jm hdrop inv
    have hget : prog.get? p = some inst := by
      have h0 := List.get?_drop prog p 0
      rw [← hdrop] at h0
      simpa using h0.symm
    have hrest : rest = prog.drop (p + 1) := by
      have h1 := List.drop_drop 1 p prog
      rw [← hdrop] at h1
      simpa using h1
    cases hK : inst.kind with
    | JumpIfZero =>
      simp only [pjGo, hK]
      exact ih (p + 1) (p :: stack) jm hrest (pjinv_step_jz inv hget hK)
    | JumpIfNotZero =>
      have hplen : p < prog.length := by
        obtain ⟨hp, -⟩ := List.get?_eq_some.mp hget
        exact hp
      have hd1 : 0 ≤ depthAt prog (p + 1) := hpos (p + 1) (by omega)
      have hdp : depthAt prog (p + 1) = depthAt prog p - 1 := by
        rw [depthAt_succ hget, hK]
        simp [bracketDelta, sub_eq_add_neg]
      have hh := inv.height
      have hlen1 : 1 ≤ stack.length := by
        by_contra hc
        have h0 : stack.length = 0 := by omega
        rw [h0] at hh
        simp only [Nat.cast_zero] at hh
        linarith
      obtain ⟨t, s, rfl⟩ : ∃ t s, stack = t :: s := by
        cases stack with
        | nil => simp at hlen1
        | cons a b => exact ⟨a, b, rfl⟩
      obtain ⟨hmt, inv'⟩ := pjinv_step_jnz inv hget hK
      simp only [pjGo, hK]
      exact ih (p + 1) s _ hrest inv'
    | IncrementPointer =>
      simp only [pjGo, hK]
      exact ih _ _ _ hrest
        (pjinv_step_other inv hget (by simp [hK]) (by simp [hK]))
    | DecrementPointer =>
      simp only [pjGo, hK]
      exact ih _ _ _ hrest
        (pjinv_step_other inv hget (by simp [hK]) (by simp [hK]))
    | IncrementByte =>
      simp only [pjGo, hK]
      exact ih _ _ _ hrest
        (pjinv_step_other inv hget (by simp [hK]) (by simp [hK]))
    | DecrementByte =>
      simp only [pjGo, hK]
      exact ih _ _ _ hrest
        (pjinv_step_other inv hget (by simp [hK]) (by simp [hK]))
    | PrintByteAsChar =>
      simp only [pjGo, hK]
      exact ih _ _ _ hrest
        (pjinv_step_other inv hget (by simp [hK]) (by simp [hK]))
    | ReadInputToByte =>
      simp only [pjGo, hK]
      exact ih _ _ _ hrest
        (pjinv_step_other inv hget (by simp [hK]) (by simp [hK]))

theorem pjGo_err_aux (prog : List IRInstruction) :
    ∀ (l : List IRInstruction) (p : Nat) (stack : List Nat)
      (jm : List (Nat × Nat)), l = prog.drop p → PJInv prog p stack jm →
      (∃ u, u ≤ prog.length ∧ depthAt prog u < 0) →
      pjGo l p stack jm = .error .unwrapNone := by
  intro l
  induction l with
  | nil =>
    intro p stack jm hdrop inv hex
    obtain ⟨u, hu, hneg⟩ := hex
    have hlen : prog.length ≤ p := List.drop_eq_nil_iff_le.mp hdrop.symm
    have := inv.nonneg u (by omega)
    linarith
  | cons inst rest ih =>
    intro p stack jm hdrop inv hex
    have hget : prog.get? p = some inst := by
      have h0 := List.get?_drop prog p 0
      rw [← hdrop] at h0
      simpa using h0.symm
    have hrest : rest = prog.drop (p + 1) := by
      have h1 := List.drop_drop 1 p prog
      rw [← hdrop] at h1
      simpa using h1
    cases hK : inst.kind with
    | JumpIfZero =>
      simp only [pjGo, hK]
      exact ih (p + 1) (p :: stack) jm hrest (pjinv_step_jz inv hget hK) hex
    | JumpIfNotZero =>
      cases stack with
      | nil => simp [pjGo, hK]
      | cons t s =>
        obtain ⟨-, inv'⟩ := pjinv_step_jnz inv hget hK
        simp only [pjGo, hK]
        exact ih (p + 1) s _ hrest inv' hex
    | IncrementPointer =>
      simp only [pjGo, hK]
      exact ih _ _ _ hrest
        (pjinv_step_other inv hget (by simp [hK]) (by simp [hK])) hex
    | DecrementPointer =>
      simp only [pjGo, hK]
      exact ih _ _ _ hrest
        (pjinv_step_other inv hget (by simp [hK]) (by simp [hK])) hex
    | IncrementByte =>
      simp only [pjGo, hK]
      exact ih _ _ _ hrest
        (pjinv_step_other inv hget (by simp [hK]) (by simp [hK])) hex
    | DecrementByte =>
      simp only [pjGo, hK]
      exact ih _ _ _ hrest
        (pjinv_step_other inv hget (by simp [hK]) (by simp [hK])) hex
    | PrintByteAsChar =>
      simp only [pjGo, hK]
      exact ih _ _ _ hrest
        (pjinv_step_other inv hget (by simp [hK]) (by simp [hK])) hex
    | ReadInputToByte =>
      simp only [pjGo, hK]
      exact ih _ _ _ hrest
        (pjinv_step_other inv hget (by simp [hK]) (by simp [hK])) hex

theorem depth_counts (prog : List IRInstruction) :
    depthAt prog prog.length =
      (prog.countP (fun i => i.kind == .JumpIfZero) : Int) -
      (prog.countP (fun i => i.kind == .JumpIfNotZero) : Int) := by
  rw [depthAt, List.take_length]
  induction prog with
  | nil => simp
  | cons i l ih =>
    simp only [List.map_cons, List.sum_cons, List.countP_cons]
    rw [ih]
    by_cases h1 : i.kind = .JumpIfZero
    · simp only [bracketDelta, h1, if_true]
      have hb1 : ((IRInstructionKind.JumpIfZero == .JumpIfZero) = true) := by
        decide
      have hb2 : ((IRInstructionKind.JumpIfZero == .JumpIfNotZero) = false) :=
        by decide
      simp [hb1, hb2]
      ring
    · by_cases h2 : i.kind = .JumpIfNotZero
      · have hb1 : ((i.kind == IRInstructionKind.JumpIfZero) = false) := by
          simp [h2]
        have hb2 : ((i.kind == IRInstructionKind.JumpIfNotZero) = true) := by
          simp [h2]
        simp only [bracketDelta, h1, if_false, h2, if_true, hb1, hb2]
        simp
        ring
      · have hb1 : ((i.kind == IRInstructionKind.JumpIfZero) = false) := by
          simp [h1]
        have hb2 : ((i.kind == IRInstructionKind.JumpIfNotZero) = false) := by
          simp [h2]
        simp only [bracketDelta, h1, if_false, h2, hb1, hb2]
        simp

/-! ## Claim C3 -/

/-- Claim C3: on a correctly nested program (`Balanced`) the resolver
completes without error and the jump map holds exactly `2·N` entries —
one open-to-close and one close-to-open per pair — where `N` is the number
of loop-opens (= the number of loop-closes); on a program with an unmatched
loop-close, the resolver panics (the unwrap of the empty stack's pop), so
`interpret` fails before any instruction is executed and with no output,
whatever the fuel and the input. -/
theorem c3_loop_balance (prog : List IRInstruction) :
    (Balanced prog →
      ∃ jm, precomputeJumps prog = .ok jm ∧
        jm.length =
          2 * prog.countP (fun inst => inst.kind == .JumpIfZero) ∧
        prog.countP (fun inst => inst.kind == .JumpIfZero) =
          prog.countP (fun inst => inst.kind == .JumpIfNotZero)) ∧
    (HasUnmatchedClose prog →
      precomputeJumps prog = .error .unwrapNone ∧
      ∀ fuel input, interpretIR fuel prog input =
        .error ⟨.unwrapNone, []⟩) := by
  constructor
  · intro hb
    obtain ⟨stack', jm, hok, invf⟩ :=
      pjGo_ok_aux prog hb.1 prog 0 [] [] (by simp) (pjinv_init prog)
    have hcnt : prog.countP (fun inst => inst.kind == .JumpIfZero) =
        prog.countP (fun inst => inst.kind == .JumpIfNotZero) := by
      have hdc := depth_counts prog
      rw [hb.2] at hdc
      have h' : (prog.countP (fun i => i.kind == .JumpIfZero) : Int) =
          (prog.countP (fun i => i.kind == .JumpIfNotZero) : Int) := by
        linarith
      exact_mod_cast h'
    refine ⟨jm, hok, ?_, hcnt⟩
    have hlen := invf.jm_len
    rw [List.take_length] at hlen
    rw [hlen, hcnt]
  · intro hu
    have herr := pjGo_err_aux prog prog 0 [] [] (by simp) (pjinv_init prog) hu
    refine ⟨herr, ?_⟩
    intro fuel input
    simp only [interpretIR, precomputeJumps, herr]

/-- Witness for C3: the balanced program `[+]` (as IR) resolves to the two
entries `(0,2)` and `(2,0)`; the unmatched-close program `]` makes the whole
interpreter fail with the unwrap panic and empty output. -/
theorem c3_loop_balance_witness :
    precomputeJumps [⟨.JumpIfZero, none⟩, ⟨.IncrementByte, some 1⟩,
        ⟨.JumpIfNotZero, none⟩] = .ok [(0, 2), (2, 0)] ∧
    ([(0, 2), (2, 0)] : List (Nat × Nat)).length =
      2 * ([⟨.JumpIfZero, none⟩, ⟨.IncrementByte, some 1⟩,
        ⟨.JumpIfNotZero, none⟩] : List IRInstruction).countP
          (fun inst => inst.kind == .JumpIfZero) ∧
    interpretIR 7 [⟨.JumpIfNotZero, none⟩] [] = .error ⟨.unwrapNone, []⟩ := by
  have hbal : Balanced [⟨.JumpIfZero, none⟩, ⟨.IncrementByte, some 1⟩,
      ⟨.JumpIfNotZero, none⟩] := by
    constructor
    · intro n hn
      simp only [List.length_cons, List.length_nil] at hn
      interval_cases n <;> decide
    · decide
  obtain ⟨jm, hok, hlen, hcnt⟩ := (c3_loop_balance _).1 hbal
  have hval : precomputeJumps [⟨.JumpIfZero, none⟩,
      ⟨.IncrementByte, some 1⟩, ⟨.JumpIfNotZero, none⟩] =
      .ok [(0, 2), (2, 0)] := rfl
  rw [hok] at hval
  have hjm : jm = [(0, 2), (2, 0)] := Except.ok.inj hval
  subst hjm
  have hu : HasUnmatchedClose [⟨.JumpIfNotZero, none⟩] :=
    ⟨1, by decide, by decide⟩
  exact ⟨hok, hlen, ((c3_loop_balance _).2 hu).2 7 []⟩

/-! ## Claim C4 -/

/-- Claim C4: after the resolver pass on a bracket-balanced program the jump
map is symmetric and exact — every classically matched pair `(i, j)` is in
the map in both directions, and the map has an entry exactly at the
loop-boundary instructions (one value per key, by the map's lookup
semantics) and at no other instruction. -/
theorem c4_jump_map (prog : List IRInstruction) (jm : List (Nat × Nat))
    (hb : Balanced prog) (hok : precomputeJumps prog = .ok jm) :
    (∀ i j, Matched prog i j →
      jmGet jm i = some j ∧ jmGet jm j = some i) ∧
    (∀ i, (jmGet jm i).isSome = true ↔
      (kindAt prog i = some .JumpIfZero ∨
       kindAt prog i = some .JumpIfNotZero)) := by
  obtain ⟨stack', jm', hok', invf⟩ :=
    pjGo_ok_aux prog hb.1 prog 0 [] [] (by simp) (pjinv_init prog)
  have h2 : precomputeJumps prog = .ok jm' := hok'
  rw [hok] at h2
  have hjm : jm = jm' := Except.ok.inj h2
  subst hjm
  have hstk : stack'.length = 0 := by
    have hh := invf.height
    rw [hb.2] at hh
    exact_mod_cast hh
  have hstk' : stack' = [] := List.length_eq_zero.mp hstk
  subst hstk'
  constructor
  · intro i j hm
    have hjlt : j < prog.length := kindAt_lt hm.2.1
    have hmem_ij : (i, j) ∈ jm :=
      (invf.jm_mem i j).mpr ⟨i, j, hm, hjlt, Or.inl rfl⟩
    have hmem_ji : (j, i) ∈ jm :=
      (invf.jm_mem j i).mpr ⟨i, j, hm, hjlt, Or.inr rfl⟩
    constructor
    · refine jmGet_of_mem_unique hmem_ij ?_
      intro b' hb'
      obtain ⟨i', j', hm', hj', hab⟩ := (invf.jm_mem i b').mp hb'
      rcases hab with h | h
      · rw [Prod.mk.injEq] at h
        obtain ⟨h1, h2'⟩ := h
        subst h1
        subst h2'
        exact matched_right_unique hm' hm
      · rw [Prod.mk.injEq] at h
        obtain ⟨h1, h2'⟩ := h
        subst h1
        have hctr := hm'.2.1
        rw [hm.1] at hctr
        simp at hctr
    · refine jmGet_of_mem_unique hmem_ji ?_
      intro b' hb'
      obtain ⟨i', j', hm', hj', hab⟩ := (invf.jm_mem j b').mp hb'
      rcases hab with h | h
      · rw [Prod.mk.injEq] at h
        obtain ⟨h1, h2'⟩ := h
        subst h1
        have hctr := hm'.1
        rw [hm.2.1] at hctr
        simp at hctr
      · rw [Prod.mk.injEq] at h
        obtain ⟨h1, h2'⟩ := h
        subst h1
        subst h2'
        exact matched_left_unique hm' hm
  · intro i
    constructor
    · intro hs
      obtain ⟨b, hbg⟩ := Option.isSome_iff_exists.mp hs
      have hmem := mem_of_jmGet hbg
      obtain ⟨i', j', hm', hj', hab⟩ := (invf.jm_mem i b).mp hmem
      rcases hab with h | h
      · rw [Prod.mk.injEq] at h
        obtain ⟨h1, -⟩ := h
        subst h1
        exact Or.inl hm'.1
      · rw [Prod.mk.injEq] at h
        obtain ⟨h1, -⟩ := h
        subst h1
        exact Or.inr hm'.2.1
    · intro hk
      rcases hk with hk | hk
      · have hlt := kindAt_lt hk
        rcases invf.jz_covered i hlt hk with hin | ⟨j, hj⟩
        · simp at hin
        · exact jmGet_isSome_of_mem hj
      · have hlt := kindAt_lt hk
        obtain ⟨t, ht⟩ := invf.jnz_covered i hlt hk
        exact jmGet_isSome_of_mem ht

/-- Witness for C4 on the program `[]` (as IR): the map sends 0 to 1 and 1
to 0, and has no entry at 2. -/
theorem c4_jump_map_witness :
    jmGet [(0, 1), (1, 0)] 0 = some 1 ∧
    jmGet [(0, 1), (1, 0)] 1 = some 0 ∧
    (jmGet [(0, 1), (1, 0)] 2).isSome = false := by
  have hbal : Balanced [(⟨.JumpIfZero, none⟩ : IRInstruction),
      ⟨.JumpIfNotZero, none⟩] := by
    constructor
    · intro n hn
      simp only [List.length_cons, List.length_nil] at hn
      interval_cases n <;> decide
    · decide
  have h := c4_jump_map [⟨.JumpIfZero, none⟩, ⟨.JumpIfNotZero, none⟩]
    [(0, 1), (1, 0)] hbal rfl
  have hm : Matched [⟨.JumpIfZero, none⟩, ⟨.JumpIfNotZero, none⟩] 0 1 := by
    refine ⟨by decide, by decide, by decide, by decide, ?_⟩
    intro m h1 h2
    have heq : m = 1 := by omega
    subst heq
    decide
  exact ⟨(h.1 0 1 hm).1, (h.1 0 1 hm).2, by decide⟩

/-! ## Claim C7 -/

/-- Claim C7: with the source's jump semantics (a taken jump sets the
cursor to `jump_map[cursor]` and the unconditional `cursor += 1` then lands
past the matching bracket), the program `++++++++[>++++++++<-]>.` runs to
completion (the cursor reaches the program length, 9 IR instructions) and
writes exactly the single byte 64 to standard output. -/
theorem c7_mul_loop : outIp (interpretSrc 50 prog64 []) = some ([64], 9) := by
  rw [interpretSrc_eq_raw]
  rfl

end Sac
